import Mathlib
/-!
Shallow embedding of the incremental semantic-index synchronization engine of
the notes-agent repository: class `NoteVectorStore` in
`src/obsidian_notes_agent/utils/vector_store.py`, together with the vault
abstraction it consumes (`src/obsidian_notes_agent/utils/obsidian.py`).

Modelling conventions, following the design notes of the specification:

* The embedding model and the text splitter are external dependencies
  (HuggingFaceEmbeddings, RecursiveCharacterTextSplitter, hashlib.md5); they
  are modelled as opaque function parameters collected in `Env`.  Embedding
  vectors are irrelevant to every property considered here (they are produced
  and stored but never inspected by the source), so records carry no vector
  field.
* The Chroma collection is modelled as the list of its records (`Store`).
  `add_documents(documents, ids=...)` is an id-keyed upsert
  (`Store.upsert`), `collection.delete(ids=...)` removes the records whose id
  is listed, and `collection.get(where={"source": ...})` filters on the
  `source` metadata field — exactly the three capabilities the source uses.
* `Chroma.from_documents(..., ids=...)` in `index_all_notes` is modelled, per
  the source comment "Clear existing collection and add new documents with
  stable IDs" and the specification's rebuild abstraction, as constructing a
  fresh collection holding exactly the given records.  The guard
  `if documents:` of the source is kept: when no document is produced the
  store object is left untouched.
* The filesystem vault is an association list from path strings to notes.
  `ObsidianVault.get_all_notes` is the list of keys, `read_note` fails on a
  missing or unreadable note, and `os.path.getmtime` returns the stored
  modification time (0 when the path is missing, mirroring the
  `except OSError` fallback of the source).
* Python's f-string decimal formatting of the chunk index is modelled by
  `natRepr`, a fuel-based decimal printer.
* Backend failures (the `except Exception` paths of `_get_note_doc_ids` and
  `delete_note_from_index`) are modelled by explicit boolean failure flags on
  the error-aware variants `getNoteDocIdsX` / `deleteNoteFromIndexX`; the
  flag-free functions used by the sync orchestrator are their success-path
  instantiations.
-/

set_option maxHeartbeats 1000000
set_option maxRecDepth 8000
/-- Opaque external dependencies of `NoteVectorStore`: `hashlib.md5(...).hexdigest()`
and `RecursiveCharacterTextSplitter.split_text`. -/
structure Env where
  md5hex : String → String
  splitText : String → List String
/-- One note of the vault filesystem model: the data `ObsidianVault.read_note`
extracts plus the file's modification time and a readability flag (a file whose
`open`/frontmatter parse raises is unreadable). -/
structure Note where
  title : String
  content : String
  tags : List String
  created : String
  mtime : Nat
  readable : Bool
deriving DecidableEq, Repr, Inhabited
/-- The vault: an association list from note path (as a string) to note. -/
abbrev Vault := List (String × Note)
/-- Result type of `ObsidianVault.read_note` (frontmatter metadata fields
`tags` and `created` plus title and content). -/
structure NoteData where
  title : String
  content : String
  tags : List String
  created : String
deriving DecidableEq, Repr
/-- Metadata bag attached to every indexed chunk by `add_note_to_index` /
`index_all_notes`: source path, title, tags, created, modification time and
chunk ordinal. -/
structure Meta where
  source : String
  title : String
  tags : List String
  created : String
  mtime : Nat
  chunk : Nat
deriving DecidableEq, Repr
/-- One record of the Chroma collection: id, chunk text, metadata.  The
embedding vector is opaque and never read back by the source, so it is not
modelled. -/
structure Record where
  id : String
  text : String
  meta : Meta
deriving DecidableEq, Repr
/-- The Chroma collection "obsidian_notes": the list of its records. -/
structure Store where
  records : List Record
deriving DecidableEq, Repr
/-- Counts returned by `sync_index`. -/
structure SyncStats where
  added : Nat
  removed : Nat
  updated : Nat
  unchanged : Nat
deriving DecidableEq, Repr
/-- Decimal digit character, as produced by Python's decimal int formatting. -/
def digitChr (d : Nat) : Char :=
  Char.ofNat (48 + d)
/-- Fuel-based decimal digit list of a natural number (most significant digit
first); mirrors the structure of decimal printing with explicit fuel. -/
def natReprCore : Nat → Nat → List Char
  | 0, _ => []
  | fuel + 1, n => if n < 10 then [digitChr n] else natReprCore fuel (n / 10) ++ [digitChr (n % 10)]
/-- Decimal string of a natural number: the model of Python's f-string
formatting of the chunk index. -/
def natRepr (n : Nat) : String :=
  ⟨natReprCore (n + 1) n⟩
/-- Model of `ObsidianVault.get_all_notes`: the list of note paths. -/
def Vault.paths (v : Vault) : List String :=
  v.map (fun e => e.1)
/-- Lookup of a path in the vault filesystem. -/
def Vault.lookup (v : Vault) (p : String) : Option Note :=
  (v.find? (fun e => e.1 = p)).map (fun e => e.2)
/-- Model of `ObsidianVault.read_note`: fails (raises) on a missing or
unreadable note, otherwise returns title, content and frontmatter metadata. -/
def readNote (v : Vault) (p : String) : Except Unit NoteData :=
  match Vault.lookup v p with
  | some n => if n.readable then .ok ⟨n.title, n.content, n.tags, n.created⟩ else .error ()
  | none => .error ()
/-- Model of `os.path.getmtime` with the `except OSError: mtime = 0` fallback
used by the source. -/
def getMtime (v : Vault) (p : String) : Nat :=
  match Vault.lookup v p with
  | some n => n.mtime
  | none => 0
/-- Model of `NoteVectorStore._generate_doc_id`: a 12-character truncation of
the md5 hex digest of the note path, then `"_chunk_"`, then the decimal chunk
index. -/
def generateDocId (env : Env) (p : String) (i : Nat) : String :=
  (env.md5hex p).take 12 ++ "_chunk_" ++ natRepr i
/-- Full text indexed for a note, as built by the source:
`f"# {title}\n\n{content}"`. -/
def fullText (nd : NoteData) : String :=
  "# " ++ nd.title ++ "\n\n" ++ nd.content
/-- Records built for one note by the chunk loop shared by
`add_note_to_index` and `index_all_notes`: one record per chunk of the split
full text, with the shared metadata bag plus the chunk ordinal, and the
deterministic per-chunk id. -/
def chunkRecords (env : Env) (p : String) (nd : NoteData) (mtime : Nat) : List Record :=
  (env.splitText (fullText nd)).enum.map (fun ic =>
    { id := generateDocId env p ic.1
      text := ic.2
      meta := { source := p, title := nd.title, tags := nd.tags, created := nd.created,
                mtime := mtime, chunk := ic.1 } })
/-- Id-keyed upsert: the model of `Chroma.add_documents(documents, ids=...)`
(records whose id is re-used are replaced, new ids are appended). -/
def Store.upsert (s : Store) (rs : List Record) : Store :=
  { records := s.records.filter (fun r => rs.all (fun r2 => r2.id != r.id)) ++ rs }
/-- Model of `NoteVectorStore._get_note_doc_ids`, success path: the ids of the
records whose metadata `source` equals the note path. -/
def getNoteDocIds (s : Store) (p : String) : List String :=
  (s.records.filter (fun r => r.meta.source == p)).map (fun r => r.id)
/-- Error-aware model of `NoteVectorStore._get_note_doc_ids`: `getOk = false`
models the `except Exception` path in which the backend `collection.get` call
fails and the function raises `RuntimeError`. -/
def getNoteDocIdsX (getOk : Bool) (s : Store) (p : String) : Except Unit (List String) :=
  if getOk then .ok (getNoteDocIds s p) else .error ()
/-- Model of `NoteVectorStore.delete_note_from_index`, success path: fetch the
note's record ids; if there are none return 0, otherwise delete exactly those
ids and return their count. -/
def deleteNoteFromIndex (s : Store) (p : String) : Nat × Store :=
  let ids := getNoteDocIds s p
  if ids.isEmpty then (0, s)
  else (ids.length, { records := s.records.filter (fun r => !(ids.contains r.id)) })
/-- Error-aware model of `NoteVectorStore.delete_note_from_index`.  The source
wraps the `_get_note_doc_ids` call in `try/except RuntimeError: return 0`, so
a failing lookup (`getOk = false`) yields a successful zero count; a failing
backend delete call (`deleteOk = false`, the second `except` block) re-raises
as `RuntimeError`, modelled as `.error ()`. -/
def deleteNoteFromIndexX (getOk deleteOk : Bool) (s : Store) (p : String) :
    Except Unit (Nat × Store) :=
  match getNoteDocIdsX getOk s p with
  | .error _ => .ok (0, s)
  | .ok ids =>
    if ids.isEmpty then .ok (0, s)
    else if deleteOk then
      .ok (ids.length, { records := s.records.filter (fun r => !(ids.contains r.id)) })
    else .error ()
/-- Model of `NoteVectorStore.add_note_to_index`.  Returns the chunk count,
the updated store, and the list of warnings logged (the source logs a warning
and returns 0 when `read_note` raises).  The `if documents:` guard of the
source is immaterial here because upserting an empty record list leaves the
store unchanged. -/
def addNoteToIndex (env : Env) (v : Vault) (s : Store) (p : String) :
    Nat × Store × List String :=
  match readNote v p with
  | .error _ => (0, s, ["Failed to read note " ++ p])
  | .ok nd =>
    let mtime := getMtime v p
    let recs := chunkRecords env p nd mtime
    (recs.length, s.upsert recs, [])
/-- Record list built by the enumeration loop of `index_all_notes`: for every
path of the vault, the chunk records of the note (a note whose read raises is
skipped with a warning). -/
def vaultDocRecords (env : Env) (v : Vault) (p : String) : List Record :=
  match readNote v p with
  | .error _ => []
  | .ok nd => chunkRecords env p nd (getMtime v p)
/-- All records `index_all_notes` derives from the current vault. -/
def indexAllDocs (env : Env) (v : Vault) : List Record :=
  (Vault.paths v).flatMap (fun p => vaultDocRecords env v p)
/-- Model of `NoteVectorStore.index_all_notes`: build the records of every
readable note; when at least one record was produced, replace the collection
by a fresh one holding exactly those records (`Chroma.from_documents`,
modelled per the source comment "Clear existing collection and add new
documents with stable IDs"); when no record was produced (`if documents:`
guard), leave the store untouched.  Returns the number of records built. -/
def indexAllNotes (env : Env) (v : Vault) (s : Store) : Nat × Store :=
  let docs := indexAllDocs env v
  if docs.isEmpty then (0, s)
  else (docs.length, { records := docs })
/-- Model of `NoteVectorStore.update_note_index`: delete the note's existing
chunks, then re-add the note. -/
def updateNoteIndex (env : Env) (v : Vault) (s : Store) (p : String) :
    Nat × Store × List String :=
  let del := deleteNoteFromIndex s p
  addNoteToIndex env v del.2 p
/-- Mapping from note source to stored modification time recovered from the
collection metadata by `sync_index` (the mtime of the first chunk seen per
source, in record order). -/
def collectIndexedNotes (records : List Record) : List (String × Nat) :=
  records.foldl (fun acc r =>
    if acc.any (fun e => e.1 == r.meta.source) then acc
    else acc ++ [(r.meta.source, r.meta.mtime)]) []
/-- Lookup in a path-to-mtime association list, defaulting to 0 (the
`indexed_notes.get(note_path_str, 0)` convention of the source). -/
def lookupMtime (l : List (String × Nat)) (p : String) : Nat :=
  match l.find? (fun e => e.1 = p) with
  | some e => e.2
  | none => 0
/-- Body of the `notes_to_add` loop of `sync_index`: the `note_path.exists()`
guard (membership of the path in the vault listing), then `add_note_to_index`
and the `added` counter increment. -/
def addLoop (env : Env) (v : Vault) (vaultPaths : List String) (acc : Nat × Store)
    (p : String) : Nat × Store :=
  if vaultPaths.contains p then (acc.1 + 1, (addNoteToIndex env v acc.2 p).2.1) else acc
/-- Body of the `notes_to_remove` loop of `sync_index`: `delete_note_from_index`
and the `removed` counter increment. -/
def removeLoop (acc : Nat × Store) (p : String) : Nat × Store :=
  (acc.1 + 1, (deleteNoteFromIndex acc.2 p).2)
/-- Body of the `common_notes` loop of `sync_index`: re-index the note
(`update_note_index`, counted as updated) exactly when the vault mtime is
strictly greater than the indexed mtime, otherwise count it unchanged. -/
def checkLoop (env : Env) (v : Vault) (vaultNotes indexedNotes : List (String × Nat))
    (acc : Nat × Nat × Store) (p : String) : Nat × Nat × Store :=
  if lookupMtime vaultNotes p > lookupMtime indexedNotes p then
    (acc.1 + 1, acc.2.1, (updateNoteIndex env v acc.2.2 p).2.1)
  else (acc.1, acc.2.1 + 1, acc.2.2)
/-- Model of `NoteVectorStore.sync_index`.  `metaGetOk = false` models the
`except Exception` path in which reading the collection metadata fails: the
source then performs a full reindex and reports every vault note as added.
Otherwise the source diffs vault paths against indexed sources, adds the new
paths, removes the vanished ones, and checks the common ones.  Set iteration
order of the Python original is modelled as the construction order of the
lists. -/
def syncIndex (env : Env) (v : Vault) (s : Store) (metaGetOk : Bool) : SyncStats × Store :=
  let vaultNotes : List (String × Nat) := v.map (fun e => (e.1, e.2.mtime))
  if metaGetOk then
    let indexedNotes := collectIndexedNotes s.records
    let vaultPaths := vaultNotes.map (fun e => e.1)
    let indexedPaths := indexedNotes.map (fun e => e.1)
    let toAdd := vaultPaths.filter (fun p => !(indexedPaths.contains p))
    let afterAdd := toAdd.foldl (addLoop env v vaultPaths) ((0 : Nat), s)
    let toRemove := indexedPaths.filter (fun p => !(vaultPaths.contains p))
    let afterRemove := toRemove.foldl removeLoop ((0 : Nat), afterAdd.2)
    let common := vaultPaths.filter (fun p => indexedPaths.contains p)
    let afterCheck := common.foldl (checkLoop env v vaultNotes indexedNotes)
      ((0 : Nat), (0 : Nat), afterRemove.2)
    ({ added := afterAdd.1, removed := afterRemove.1,
       updated := afterCheck.1, unchanged := afterCheck.2.1 }, afterCheck.2.2)
  else
    let full := indexAllNotes env v s
    ({ added := vaultNotes.length, removed := 0, updated := 0, unchanged := 0 }, full.2)
/-- One formatted result of `search_notes`: content, title, source path and
backend-native score of a matching record. -/
structure SearchHit where
  content : String
  title : String
  path : String
  score : Int
deriving DecidableEq, Repr
/-- Model of `NoteVectorStore.search_notes`: format the raw
`(record, score)` pairs returned by the backend similarity search.  The
backend itself (`similarity_search_with_score`) is opaque and passed as a
function. -/
def searchNotes (backend : String → Nat → List (Record × Int)) (q : String) (k : Nat) :
    List SearchHit :=
  (backend q k).map (fun rs =>
    { content := rs.1.text, title := rs.1.meta.title, path := rs.1.meta.source, score := rs.2 })
/-- Model of `NoteVectorStore.get_similar_notes`: read the target note (the
read is not guarded, so a failing read propagates), build the synthetic query
from its title and the first 500 characters of its content, search for `k + 1`
neighbors, drop every hit whose path equals the target, and keep at most `k`
results. -/
def getSimilarNotes (backend : String → Nat → List (Record × Int)) (v : Vault) (p : String)
    (k : Nat) : Except Unit (List SearchHit) :=
  match readNote v p with
  | .error e => .error e
  | .ok nd =>
    let query := nd.title ++ "\n" ++ nd.content.take 500
    let results := searchNotes backend query (k + 1)
    .ok ((results.filter (fun r => r.path != p)).take k)
/-- Injectivity assumption on the truncated path hash, over a given set of
paths: every truncation has the md5-hex truncation length 12, and distinct
paths have distinct truncations (the source relies on md5 collision-freedom
over the vault's paths). -/
def TruncInj (env : Env) (ps : List String) : Prop :=
  (∀ p ∈ ps, ((env.md5hex p).take 12).length = 12) ∧
  ∀ p ∈ ps, ∀ q ∈ ps, (env.md5hex p).take 12 = (env.md5hex q).take 12 → p = q
/-! ### Vault lookup lemmas -/

/-- Well-formed vault: distinct note paths, and every note readable (the
shape maintained by the add/modify/remove operations considered in the
incremental-correctness property). -/
def VaultWF (v : Vault) : Prop :=
  (Vault.paths v).Nodup ∧ ∀ e ∈ v, e.2.readable = true
/-! ### Canonical index characterization -/

/-- NoteData view of a vault note. -/
def noteData (n : Note) : NoteData :=
  ⟨n.title, n.content, n.tags, n.created⟩
/-- Records `index_all_notes` derives from one vault entry (derived form of
`vaultDocRecords` that avoids the self-referential lookup, valid under
distinct vault paths). -/
def entryRecords (env : Env) (e : String × Note) : List Record :=
  if e.2.readable then chunkRecords env e.1 (noteData e.2) e.2.mtime else []
/-! ### Recovering the indexed-notes map from a canonical store -/

/-- Step function of the metadata fold of `sync_index` (same body as in
`collectIndexedNotes`, factored out for reasoning). -/
def collectStep (acc : List (String × Nat)) (r : Record) : List (String × Nat) :=
  if acc.any (fun e => e.1 == r.meta.source) then acc
  else acc ++ [(r.meta.source, r.meta.mtime)]
/-- Well-shaped store over a path universe `P`: every record's id is the
deterministic id of its own source and chunk with a source in `P`, and ids are
pairwise distinct. -/
def GoodStore (env : Env) (P : List String) (s : Store) : Prop :=
  (∀ r ∈ s.records, r.id = generateDocId env r.meta.source r.meta.chunk ∧ r.meta.source ∈ P) ∧
  (s.records.map (fun r => r.id)).Nodup
/-- Boolean form of the change test of the `common_notes` loop. -/
def changedB (vn inx : List (String × Nat)) (p : String) : Bool :=
  lookupMtime vn p > lookupMtime inx p
/-! ### The vault-against-index diff (specification section 4.2) and the
canonical vault reached by one incremental sync -/

/-- Paths in the vault but not in the index (`notes_to_add`). -/
def diffAdd (u v : Vault) : List String :=
  (Vault.paths v).filter (fun p => !((Vault.paths u).contains p))
/-- Paths in the index but not in the vault (`notes_to_remove`). -/
def diffRemove (u v : Vault) : List String :=
  (Vault.paths u).filter (fun p => !((Vault.paths v).contains p))
/-- Paths in both vault and index (`common_notes`). -/
def diffCommon (u v : Vault) : List String :=
  (Vault.paths v).filter (fun p => (Vault.paths u).contains p)
/-- Common paths whose vault mtime is strictly greater than the indexed
mtime (the re-indexed set). -/
def diffChanged (u v : Vault) : List String :=
  (diffCommon u v).filter (fun p => decide (getMtime v p > getMtime u p))
/-- Common paths whose vault mtime is not strictly greater than the indexed
mtime (the untouched set). -/
def diffUnchanged (u v : Vault) : List String :=
  (diffCommon u v).filter (fun p => !(decide (getMtime v p > getMtime u p)))
/-- The note stored at a path (meaningful when the path is present). -/
def vaultNote (v : Vault) (p : String) : Note :=
  (Vault.lookup v p).getD default
/-- The vault whose canonical index is the store left by one incremental sync
of a canonical `u`-index against vault `v`: the unchanged common entries of
`u`, then the added and re-indexed entries drawn from `v`. -/
def canonVault (u v : Vault) : Vault :=
  u.filter (fun e =>
    (Vault.paths v).contains e.1 && !(decide (getMtime v e.1 > getMtime u e.1)))
  ++ (diffAdd u v ++ diffChanged u v).map (fun p => (p, vaultNote v p))
/-! ### Decomposition of `sync_index` into its three phases -/

/-- The `vault_notes` mapping built by `sync_index`. -/
def vaultNotesOf (v : Vault) : List (String × Nat) :=
  v.map (fun e => (e.1, e.2.mtime))
/-- The `indexed_notes` mapping read back from the collection metadata. -/
def indexedNotesOf (s : Store) : List (String × Nat) :=
  collectIndexedNotes s.records
/-- The `vault_paths` key set. -/
def vaultPathsOf (v : Vault) : List String :=
  (vaultNotesOf v).map (fun e => e.1)
/-- The `indexed_paths` key set. -/
def indexedPathsOf (s : Store) : List String :=
  (indexedNotesOf s).map (fun e => e.1)
/-- The `notes_to_add` loop of `sync_index` as a function of the two key
sets. -/
def addPhase (env : Env) (v : Vault) (vp ip : List String) (s : Store) : Nat × Store :=
  (vp.filter (fun p => !(ip.contains p))).foldl (addLoop env v vp) ((0 : Nat), s)
/-- The `notes_to_remove` loop of `sync_index`. -/
def removePhase (vp ip : List String) (s : Store) : Nat × Store :=
  (ip.filter (fun p => !(vp.contains p))).foldl removeLoop ((0 : Nat), s)
/-- The `common_notes` loop of `sync_index`. -/
def checkPhase (env : Env) (v : Vault) (vp ip : List String)
    (vn inx : List (String × Nat)) (s : Store) : Nat × Nat × Store :=
  (vp.filter (fun p => ip.contains p)).foldl (checkLoop env v vn inx)
    ((0 : Nat), (0 : Nat), s)
/-! ### Properties of the canonical vault left by one sync -/

/-- Timestamp compatibility between the indexed snapshot and the current
vault: on common paths the indexed mtime never exceeds the vault mtime, and
an equal mtime implies an identical note (specification section 4.2: equal or
older timestamps are treated as unchanged). -/
def Compat (u v : Vault) : Prop :=
  ∀ p n m, Vault.lookup u p = some n → Vault.lookup v p = some m →
    n.mtime ≤ m.mtime ∧ (n.mtime = m.mtime → n = m)
/-! ### Vault edit operations (add / modify / remove) -/

/-- One external edit of the document source: create a new readable note,
rewrite an existing note (advancing its modification time), or delete a
note. -/
inductive VaultOp where
  | addNote (p : String) (title content : String) (tags : List String)
      (created : String) (mtime : Nat)
  | modifyNote (p : String) (title content : String) (tags : List String)
      (created : String) (mtime : Nat)
  | removeNote (p : String)
/-- Effect of one edit on the vault filesystem. -/
def applyOp (v : Vault) : VaultOp → Vault
  | .addNote p t c tg cr m => v ++ [(p, ⟨t, c, tg, cr, m, true⟩)]
  | .modifyNote p t c tg cr m =>
    v.map (fun e => if e.1 = p then (p, ⟨t, c, tg, cr, m, true⟩) else e)
  | .removeNote p => v.filter (fun e => e.1 != p)
/-- Validity of one edit: adds create fresh paths, and modifications strictly
advance the stored modification time of an existing note. -/
def opValid (v : Vault) : VaultOp → Prop
  | .addNote p _ _ _ _ _ => p ∉ Vault.paths v
  | .modifyNote p _ _ _ _ m => ∃ n, Vault.lookup v p = some n ∧ n.mtime < m
  | .removeNote _ => True
/-- Validity of a sequence of edits applied in order. -/
def opsValid : Vault → List VaultOp → Prop
  | _, [] => True
  | v, op :: ops => opValid v op ∧ opsValid (applyOp v op) ops
/-- Path touched by an edit. -/
def opPath : VaultOp → String
  | .addNote p _ _ _ _ _ => p
  | .modifyNote p _ _ _ _ _ => p
  | .removeNote p => p
/-- Run a sequence of edits, invoking one incremental sync (`sync_index`)
after each edit, starting from the given vault and store. -/
def runOps (env : Env) : Vault → Store → List VaultOp → Vault × Store
  | v, s, [] => (v, s)
  | v, s, op :: ops => runOps env (applyOp v op) ((syncIndex env (applyOp v op) s true).2) ops
/-! ### Concrete instances used by witnesses and counterexamples -/

/-- Concrete environment whose truncated hash is injective on short paths:
the digest is the path itself padded with hex filler, and the splitter keeps
any non-empty text as a single chunk. -/
def env0 : Env :=
  { md5hex := fun s => (s ++ "0123456789abcdef0123456789abcdef").take 32
    splitText := fun s => if s = "" then [] else [s] }
/-- Concrete environment with an all-hex digest (used where the hex shape of
the truncation matters). -/
def envHex : Env :=
  { md5hex := fun _ => "0123456789abcdef0123456789abcdef"
    splitText := fun s => if s = "" then [] else [s] }
/-- Hex-digit test (lowercase, as produced by `hexdigest`). -/
def isHexChar (c : Char) : Bool :=
  c.isDigit || (decide (97 ≤ c.toNat) && decide (c.toNat ≤ 102))
def noteA1 : Note :=
  { title := "A", content := "alpha", tags := [], created := "", mtime := 1, readable := true }
def staleRec : Record :=
  { id := "feedfacefeed_chunk_0", text := "old text",
    meta := { source := "gone.md", title := "Gone", tags := [], created := "",
              mtime := 1, chunk := 0 } }
def selfHit : Record :=
  { id := "x", text := "t",
    meta := { source := "a.md", title := "A", tags := [], created := "",
              mtime := 1, chunk := 0 } }
def selfBackend : String → Nat → List (Record × Int) :=
  fun _ _ => [(selfHit, 0)]
def rec1 : Record :=
  { id := "0123456789ab_chunk_0", text := "# A\n\nx",
    meta := { source := "a.md", title := "A", tags := [], created := "",
              mtime := 1, chunk := 0 } }
def rec2 : Record :=
  { id := "0123456789ab_chunk_0", text := "# A\n\ny",
    meta := { source := "a.md", title := "A", tags := [], created := "",
              mtime := 2, chunk := 0 } }
def rec1b : Record :=
  { id := "0123456789ab_chunk_1", text := "old second chunk",
    meta := { source := "a.md", title := "A", tags := [], created := "",
              mtime := 1, chunk := 1 } }
def store4 : Store := ⟨[rec1, rec1b]⟩
def noteA2 : Note :=
  { title := "A", content := "alpha", tags := [], created := "", mtime := 2, readable := true }
def noteB1 : Note :=
  { title := "B", content := "beta", tags := [], created := "", mtime := 5, readable := true }
def ops2 : List VaultOp :=
  [.addNote "a.md" "A" "alpha" [] "" 1,
   .addNote "b.md" "B" "beta" [] "" 1,
   .modifyNote "a.md" "A" "gamma" [] "" 2,
   .removeNote "b.md"]
/-! ### Basic string and decimal-representation lemmas -/

theorem str_data_append (a b : String) : (a ++ b).data = a.data ++ b.data := by
  cases a; cases b; rfl
theorem str_ext {a b : String} (h : a.data = b.data) : a = b := by
  cases a; cases b; simp_all
theorem str_length_data (a : String) : a.length = a.data.length := rfl
theorem str_append_inj {a b c d : String} (h : a ++ b = c ++ d)
    (hl : a.length = c.length) : a = c ∧ b = d := by
  have hdata : a.data ++ b.data = c.data ++ d.data := by
    rw [← str_data_append, ← str_data_append, h]
  have hl' : a.data.length = c.data.length := hl
  have := List.append_inj hdata hl'
  exact ⟨str_ext this.1, str_ext this.2⟩
theorem digitChr_inj : ∀ d < 10, ∀ e < 10, digitChr d = digitChr e → d = e := by
  decide
theorem natReprCore_ne_nil (fuel n : Nat) (h : 0 < fuel) : natReprCore fuel n ≠ [] := by
  match fuel with
  | 0 => omega
  | f + 1 =>
    unfold natReprCore
    by_cases hn : n < 10 <;> simp [hn]
theorem natReprCore_inj (m : Nat) : ∀ f1 f2 n, m < f1 → n < f2 →
    natReprCore f1 m = natReprCore f2 n → m = n := by
  induction m using Nat.strong_induction_on with
  | _ m ih =>
    intro f1 f2 n hm hn heq
    cases f1 with
    | zero => omega
    | succ g1 =>
      cases f2 with
      | zero => omega
      | succ g2 =>
        unfold natReprCore at heq
        by_cases h1 : m < 10 <;> by_cases h2 : n < 10
        · rw [if_pos h1, if_pos h2] at heq
          injection heq with hx _
          exact digitChr_inj m h1 n h2 hx
        · exfalso
          rw [if_pos h1, if_neg h2] at heq
          have hg2 : 0 < g2 := by omega
          have hlen := congrArg List.length heq
          simp only [List.length_append, List.length_singleton] at hlen
          exact natReprCore_ne_nil g2 (n / 10) hg2
            (List.eq_nil_of_length_eq_zero (by omega))
        · exfalso
          rw [if_neg h1, if_pos h2] at heq
          have hg1 : 0 < g1 := by omega
          have hlen := congrArg List.length heq
          simp only [List.length_append, List.length_singleton] at hlen
          exact natReprCore_ne_nil g1 (m / 10) hg1
            (List.eq_nil_of_length_eq_zero (by omega))
        · rw [if_neg h1, if_neg h2] at heq
          have hlen := congrArg List.length heq
          simp only [List.length_append, List.length_singleton] at hlen
          obtain ⟨hpre, hsuf⟩ := List.append_inj heq (by omega)
          injection hsuf with hx _
          have hmod : m % 10 = n % 10 :=
            digitChr_inj _ (Nat.mod_lt _ (by omega)) _ (Nat.mod_lt _ (by omega)) hx
          have hmlt : m / 10 < m := Nat.div_lt_self (by omega) (by omega)
          have hdiv : m / 10 = n / 10 :=
            ih (m / 10) hmlt g1 g2 (n / 10) (by omega) (by omega) hpre
          omega
theorem natRepr_inj {m n : Nat} (h : natRepr m = natRepr n) : m = n := by
  have hdata : natReprCore (m + 1) m = natReprCore (n + 1) n := by
    have := congrArg String.data h
    simpa [natRepr] using this
  exact natReprCore_inj m (m + 1) (n + 1) n (Nat.lt_succ_self m) (Nat.lt_succ_self n) hdata
theorem TruncInj.mono {env : Env} {ps qs : List String} (h : TruncInj env ps)
    (hsub : ∀ p ∈ qs, p ∈ ps) : TruncInj env qs :=
  ⟨fun p hp => h.1 p (hsub p hp), fun p hp q hq => h.2 p (hsub p hp) q (hsub q hq)⟩
theorem generateDocId_inj {env : Env} {p q : String} {i j : Nat}
    (hp : ((env.md5hex p).take 12).length = 12)
    (hq : ((env.md5hex q).take 12).length = 12)
    (hpq : (env.md5hex p).take 12 = (env.md5hex q).take 12 → p = q)
    (h : generateDocId env p i = generateDocId env q j) : p = q ∧ i = j := by
  unfold generateDocId at h
  have h1 := str_append_inj h
    (by rw [String.length_append, String.length_append, hp, hq])
  have h2 := str_append_inj h1.1 (by rw [hp, hq])
  exact ⟨hpq h2.1, natRepr_inj h1.2⟩
theorem lookup_eq_some_of_mem {v : Vault} {p : String} {n : Note}
    (hnd : (Vault.paths v).Nodup) (hmem : (p, n) ∈ v) : Vault.lookup v p = some n := by
  induction v with
  | nil => cases hmem
  | cons e v ih =>
    simp only [Vault.paths, List.map_cons, List.nodup_cons] at hnd
    rcases List.mem_cons.mp hmem with heq | hmem'
    · subst heq
      simp [Vault.lookup, List.find?]
    · have hne : e.1 ≠ p := by
        intro hc
        exact hnd.1 (hc ▸ List.mem_map.mpr ⟨(p, n), hmem', rfl⟩)
      have := ih hnd.2 hmem'
      simpa [Vault.lookup, List.find?_cons, hne] using this
theorem mem_of_lookup_eq_some {v : Vault} {p : String} {n : Note}
    (h : Vault.lookup v p = some n) : (p, n) ∈ v := by
  induction v with
  | nil => simp [Vault.lookup] at h
  | cons e v ih =>
    by_cases he : e.1 = p
    · have h2 : e.2 = n := by
        simp [Vault.lookup, List.find?_cons, he] at h
        exact h
      exact List.mem_cons.mpr (Or.inl (by cases e; simp_all))
    · have h2 : Vault.lookup v p = some n := by
        simpa [Vault.lookup, List.find?_cons, he] using h
      exact List.mem_cons.mpr (Or.inr (ih h2))
theorem lookup_eq_none_iff {v : Vault} {p : String} :
    Vault.lookup v p = none ↔ p ∉ Vault.paths v := by
  induction v with
  | nil => simp [Vault.lookup, Vault.paths]
  | cons e v ih =>
    by_cases he : e.1 = p
    · simp [Vault.lookup, List.find?_cons, he, Vault.paths]
    · simpa [Vault.lookup, List.find?_cons, he, Vault.paths, Ne.symm he] using ih
theorem lookup_mem_paths {v : Vault} {p : String} {n : Note}
    (h : Vault.lookup v p = some n) : p ∈ Vault.paths v :=
  List.mem_map.mpr ⟨(p, n), mem_of_lookup_eq_some h, rfl⟩
theorem lookup_isSome_of_mem_paths {v : Vault} {p : String}
    (h : p ∈ Vault.paths v) : ∃ n, Vault.lookup v p = some n := by
  cases hl : Vault.lookup v p with
  | some n => exact ⟨n, rfl⟩
  | none => exact absurd h (lookup_eq_none_iff.mp hl)
theorem readNote_ok_of_WF {v : Vault} {p : String} {n : Note} (hwf : VaultWF v)
    (h : Vault.lookup v p = some n) :
    readNote v p = .ok ⟨n.title, n.content, n.tags, n.created⟩ := by
  have hr : n.readable = true := hwf.2 (p, n) (mem_of_lookup_eq_some h)
  simp [readNote, h, hr]
theorem readNote_err_of_not_mem {v : Vault} {p : String}
    (h : p ∉ Vault.paths v) : readNote v p = .error () := by
  simp [readNote, lookup_eq_none_iff.mpr h]
theorem getMtime_eq {v : Vault} {p : String} {n : Note}
    (h : Vault.lookup v p = some n) : getMtime v p = n.mtime := by
  simp [getMtime, h]
/-! ### Chunk record lemmas -/

theorem chunkRecords_length (env : Env) (p : String) (nd : NoteData) (m : Nat) :
    (chunkRecords env p nd m).length = (env.splitText (fullText nd)).length := by
  simp [chunkRecords]
theorem mem_chunkRecords {env : Env} {p : String} {nd : NoteData} {m : Nat} {r : Record} :
    r ∈ chunkRecords env p nd m ↔
      ∃ i c, (env.splitText (fullText nd))[i]? = some c ∧
        r = { id := generateDocId env p i, text := c,
              meta := { source := p, title := nd.title, tags := nd.tags,
                        created := nd.created, mtime := m, chunk := i } } := by
  unfold chunkRecords
  constructor
  · intro h
    obtain ⟨ic, hic, rfl⟩ := List.mem_map.mp h
    exact ⟨ic.1, ic.2, List.mem_enum_iff_getElem?.mp hic, rfl⟩
  · rintro ⟨i, c, hget, rfl⟩
    exact List.mem_map.mpr ⟨(i, c), List.mem_enum_iff_getElem?.mpr hget, rfl⟩
theorem chunkRecords_fields {env : Env} {p : String} {nd : NoteData} {m : Nat} {r : Record}
    (h : r ∈ chunkRecords env p nd m) :
    r.meta.source = p ∧ r.meta.mtime = m ∧ r.id = generateDocId env p r.meta.chunk ∧
      r.meta.chunk < (env.splitText (fullText nd)).length := by
  obtain ⟨i, c, hget, rfl⟩ := mem_chunkRecords.mp h
  refine ⟨rfl, rfl, rfl, ?_⟩
  exact (List.getElem?_eq_some.mp hget).1
theorem chunkRecords_ids_nodup {env : Env} {p : String} (nd : NoteData) (m : Nat)
    (hp : ((env.md5hex p).take 12).length = 12) :
    ((chunkRecords env p nd m).map (fun r => r.id)).Nodup := by
  unfold chunkRecords
  rw [List.map_map]
  refine List.Nodup.map_on ?_ ?_
  · have hnd : ((env.splitText (fullText nd)).enum.map Prod.fst).Nodup := by
      rw [List.enum_map_fst]; exact List.nodup_range _
    intro ic hic jc hjc hij
    have hij' : generateDocId env p ic.1 = generateDocId env p jc.1 := hij
    have hfst : ic.1 = jc.1 := (generateDocId_inj hp hp (fun _ => rfl) hij').2
    exact List.inj_on_of_nodup_map hnd hic hjc hfst
  · exact List.Nodup.of_map Prod.fst
      (by rw [List.enum_map_fst]; exact List.nodup_range _)
theorem chunkRecords_ne_nil {env : Env} {p : String} {nd : NoteData} {m : Nat}
    (h : env.splitText (fullText nd) ≠ []) : chunkRecords env p nd m ≠ [] := by
  intro hc
  have := chunkRecords_length env p nd m
  rw [hc] at this
  simp at this
  exact h (List.eq_nil_of_length_eq_zero this.symm)
/-! ### Store operation lemmas -/

theorem upsert_of_fresh {s : Store} {rs : List Record}
    (h : ∀ r2 ∈ rs, ∀ r ∈ s.records, r2.id ≠ r.id) :
    (s.upsert rs).records = s.records ++ rs := by
  unfold Store.upsert
  have : s.records.filter (fun r => rs.all (fun r2 => r2.id != r.id)) = s.records := by
    apply List.filter_eq_self.mpr
    intro r hr
    apply List.all_eq_true.mpr
    intro r2 hr2
    exact bne_iff_ne.mpr (h r2 hr2 r hr)
  rw [this]
theorem mem_getNoteDocIds {s : Store} {p x : String} :
    x ∈ getNoteDocIds s p ↔ ∃ r ∈ s.records, r.meta.source = p ∧ r.id = x := by
  unfold getNoteDocIds
  simp only [List.mem_map, List.mem_filter, beq_iff_eq]
  constructor
  · rintro ⟨r, ⟨hr, hsrc⟩, rfl⟩
    exact ⟨r, hr, hsrc, rfl⟩
  · rintro ⟨r, hr, hsrc, rfl⟩
    exact ⟨r, ⟨hr, hsrc⟩, rfl⟩
theorem contains_id_iff_source {s : Store} {p : String} {r : Record}
    (hnd : (s.records.map (fun r => r.id)).Nodup) (hr : r ∈ s.records) :
    (getNoteDocIds s p).contains r.id = true ↔ r.meta.source = p := by
  rw [List.contains_iff_exists_mem_beq]
  constructor
  · rintro ⟨x, hx, hbeq⟩
    obtain ⟨r2, hr2, hsrc, rfl⟩ := mem_getNoteDocIds.mp hx
    have : r = r2 := List.inj_on_of_nodup_map hnd hr hr2 (beq_iff_eq.mp hbeq)
    rw [this]; exact hsrc
  · intro hsrc
    exact ⟨r.id, mem_getNoteDocIds.mpr ⟨r, hr, hsrc, rfl⟩, beq_iff_eq.mpr rfl⟩
theorem delete_eq_filter {s : Store} {p : String}
    (hnd : (s.records.map (fun r => r.id)).Nodup) :
    (deleteNoteFromIndex s p).2.records = s.records.filter (fun r => r.meta.source != p) := by
  unfold deleteNoteFromIndex
  by_cases hids : (getNoteDocIds s p).isEmpty
  · simp only [hids, if_pos]
    have : ∀ r ∈ s.records, (r.meta.source != p) = true := by
      intro r hr
      apply bne_iff_ne.mpr
      intro hc
      have hxmem : r.id ∈ getNoteDocIds s p := mem_getNoteDocIds.mpr ⟨r, hr, hc, rfl⟩
      rw [List.isEmpty_iff] at hids
      rw [hids] at hxmem
      cases hxmem
    exact ((List.filter_eq_self.mpr this).symm)
  · simp only [hids, if_neg, Bool.not_eq_true]
    apply List.filter_congr
    intro r hr
    have : (getNoteDocIds s p).contains r.id = true ↔ r.meta.source = p :=
      contains_id_iff_source hnd hr
    cases hcon : (getNoteDocIds s p).contains r.id with
    | true =>
      simp only [Bool.not_true]
      have hsrc : r.meta.source = p := this.mp hcon
      simp [hsrc]
    | false =>
      simp only [Bool.not_false]
      symm
      apply bne_iff_ne.mpr
      intro hc
      rw [this.mpr hc] at hcon
      cases hcon
theorem flatMap_congr_mem {α β : Type} {l : List α} {f g : α → List β}
    (h : ∀ a ∈ l, f a = g a) : l.flatMap f = l.flatMap g := by
  induction l with
  | nil => rfl
  | cons a l ih =>
    rw [List.flatMap_cons, List.flatMap_cons, h a (List.mem_cons_self a l),
      ih (fun a ha => h a (List.mem_cons_of_mem _ ha))]
theorem vaultDocRecords_eq_entry {env : Env} {v : Vault} {e : String × Note}
    (hnd : (Vault.paths v).Nodup) (he : e ∈ v) :
    vaultDocRecords env v e.1 = entryRecords env e := by
  have hl : Vault.lookup v e.1 = some e.2 := lookup_eq_some_of_mem hnd (by cases e; exact he)
  unfold vaultDocRecords entryRecords readNote
  rw [hl]
  cases hr : e.2.readable with
  | true => simp [hr, noteData, getMtime_eq hl]
  | false => simp [hr]
theorem indexAllDocs_eq_entry {env : Env} {v : Vault}
    (hnd : (Vault.paths v).Nodup) :
    indexAllDocs env v = v.flatMap (entryRecords env) := by
  unfold indexAllDocs Vault.paths
  rw [List.flatMap_map]
  exact flatMap_congr_mem (fun e he => vaultDocRecords_eq_entry hnd he)
theorem entryRecords_fields {env : Env} {e : String × Note} {r : Record}
    (h : r ∈ entryRecords env e) :
    r.meta.source = e.1 ∧ r.meta.mtime = e.2.mtime ∧
      r.id = generateDocId env e.1 r.meta.chunk := by
  unfold entryRecords at h
  cases hr : e.2.readable with
  | true =>
    rw [hr] at h
    simp only [if_pos] at h
    have := chunkRecords_fields h
    exact ⟨this.1, this.2.1, this.2.2.1⟩
  | false => rw [hr] at h; simp at h
theorem mem_flatMap_entry {env : Env} {v : Vault} {r : Record} :
    r ∈ v.flatMap (entryRecords env) ↔ ∃ e ∈ v, r ∈ entryRecords env e :=
  List.mem_flatMap
theorem flatMap_entry_source_mem {env : Env} {v : Vault} {r : Record}
    (h : r ∈ v.flatMap (entryRecords env)) : r.meta.source ∈ Vault.paths v := by
  obtain ⟨e, he, hr⟩ := mem_flatMap_entry.mp h
  rw [(entryRecords_fields hr).1]
  exact List.mem_map.mpr ⟨e, he, rfl⟩
theorem flatMap_entry_ids_nodup {env : Env} (v : Vault)
    (hnd : (Vault.paths v).Nodup) (hinj : TruncInj env (Vault.paths v)) :
    ((v.flatMap (entryRecords env)).map (fun r => r.id)).Nodup := by
  induction v with
  | nil => simp
  | cons e v ih =>
    rw [List.flatMap_cons, List.map_append, List.nodup_append]
    have hnd' : (Vault.paths v).Nodup := by
      simp only [Vault.paths, List.map_cons, List.nodup_cons] at hnd
      exact hnd.2
    have hmem : e.1 ∈ Vault.paths (e :: v) := by
      simp [Vault.paths]
    have hnotin : e.1 ∉ Vault.paths v := by
      simp only [Vault.paths, List.map_cons, List.nodup_cons] at hnd
      exact hnd.1
    have hsub : ∀ p ∈ Vault.paths v, p ∈ Vault.paths (e :: v) := by
      intro p hp
      simp [Vault.paths] at hp ⊢
      exact Or.inr hp
    refine ⟨?_, ih hnd' (hinj.mono hsub), ?_⟩
    · unfold entryRecords
      cases hr : e.2.readable with
      | true =>
        simp only [if_pos]
        exact chunkRecords_ids_nodup _ _ (hinj.1 e.1 hmem)
      | false => simp
    · intro x hx1 hx2
      obtain ⟨r1, hr1, rfl⟩ := List.mem_map.mp hx1
      obtain ⟨r2, hr2, hid⟩ := List.mem_map.mp hx2
      obtain ⟨e2, he2, hr2'⟩ := mem_flatMap_entry.mp hr2
      have hf1 := entryRecords_fields hr1
      have hf2 := entryRecords_fields hr2'
      have hq : e2.1 ∈ Vault.paths (e :: v) := hsub e2.1 (List.mem_map.mpr ⟨e2, he2, rfl⟩)
      have hid2 : generateDocId env e.1 r1.meta.chunk = generateDocId env e2.1 r2.meta.chunk := by
        rw [← hf1.2.2, ← hf2.2.2]
        exact hid.symm
      have heq := generateDocId_inj (hinj.1 e.1 hmem) (hinj.1 e2.1 hq)
        (fun hx => hinj.2 e.1 hmem e2.1 hq hx) hid2
      apply hnotin
      rw [heq.1]
      exact List.mem_map.mpr ⟨e2, he2, rfl⟩
theorem collectIndexedNotes_eq_foldl (records : List Record) :
    collectIndexedNotes records = records.foldl collectStep [] := rfl
theorem any_key_eq_true {acc : List (String × Nat)} {p : String}
    (h : p ∈ acc.map (fun e => e.1)) : acc.any (fun e => e.1 == p) = true := by
  obtain ⟨e, he, rfl⟩ := List.mem_map.mp h
  exact List.any_eq_true.mpr ⟨e, he, beq_iff_eq.mpr rfl⟩
theorem any_key_eq_false {acc : List (String × Nat)} {p : String}
    (h : p ∉ acc.map (fun e => e.1)) : acc.any (fun e => e.1 == p) = false := by
  rw [Bool.eq_false_iff]
  intro hc
  obtain ⟨e, he, hbeq⟩ := List.any_eq_true.mp hc
  exact h (List.mem_map.mpr ⟨e, he, beq_iff_eq.mp hbeq⟩)
theorem foldl_collect_skip {rs : List Record} {acc : List (String × Nat)}
    (h : ∀ r ∈ rs, r.meta.source ∈ acc.map (fun e => e.1)) :
    rs.foldl collectStep acc = acc := by
  induction rs with
  | nil => rfl
  | cons r rs ih =>
    have hstep : collectStep acc r = acc := by
      unfold collectStep
      rw [any_key_eq_true (h r (List.mem_cons_self r rs))]
      simp
    rw [List.foldl_cons, hstep]
    exact ih (fun r2 hr2 => h r2 (List.mem_cons_of_mem _ hr2))
theorem foldl_collect_block {rs : List Record} {acc : List (String × Nat)}
    {p : String} {m : Nat} (hne : rs ≠ [])
    (hall : ∀ r ∈ rs, r.meta.source = p ∧ r.meta.mtime = m)
    (hfresh : p ∉ acc.map (fun e => e.1)) :
    rs.foldl collectStep acc = acc ++ [(p, m)] := by
  cases rs with
  | nil => exact absurd rfl hne
  | cons r rs =>
    have hr := hall r (List.mem_cons_self r rs)
    have hstep : collectStep acc r = acc ++ [(p, m)] := by
      unfold collectStep
      rw [hr.1, hr.2, any_key_eq_false hfresh]
      simp
    rw [List.foldl_cons, hstep]
    apply foldl_collect_skip
    intro r2 hr2
    rw [(hall r2 (List.mem_cons_of_mem _ hr2)).1]
    simp
theorem foldl_collect_canonical {env : Env} (v : Vault) (acc : List (String × Nat))
    (hnd : (Vault.paths v).Nodup)
    (hdisj : ∀ p ∈ Vault.paths v, p ∉ acc.map (fun e => e.1))
    (hread : ∀ e ∈ v, e.2.readable = true)
    (hne : ∀ e ∈ v, env.splitText (fullText (noteData e.2)) ≠ []) :
    (v.flatMap (entryRecords env)).foldl collectStep acc =
      acc ++ v.map (fun e => (e.1, e.2.mtime)) := by
  induction v generalizing acc with
  | nil => simp
  | cons e v ih =>
    rw [List.flatMap_cons, List.foldl_append]
    have hmem : e.1 ∈ Vault.paths (e :: v) := by simp [Vault.paths]
    have hreade : e.2.readable = true := hread e (List.mem_cons_self e v)
    have hblockne : entryRecords env e ≠ [] := by
      unfold entryRecords
      rw [hreade]
      simp only [if_pos]
      exact chunkRecords_ne_nil (hne e (List.mem_cons_self e v))
    have hblock : (entryRecords env e).foldl collectStep acc = acc ++ [(e.1, e.2.mtime)] := by
      apply foldl_collect_block hblockne
      · intro r hr
        have := entryRecords_fields hr
        exact ⟨this.1, this.2.1⟩
      · exact hdisj e.1 hmem
    rw [hblock]
    have hnd' : (Vault.paths v).Nodup := by
      simp only [Vault.paths, List.map_cons, List.nodup_cons] at hnd
      exact hnd.2
    have hnotin : e.1 ∉ Vault.paths v := by
      simp only [Vault.paths, List.map_cons, List.nodup_cons] at hnd
      exact hnd.1
    have hdisj' : ∀ p ∈ Vault.paths v, p ∉ (acc ++ [(e.1, e.2.mtime)]).map (fun x => x.1) := by
      intro p hp
      rw [List.map_append]
      intro hc
      rcases List.mem_append.mp hc with hc1 | hc2
      · exact hdisj p (by simp [Vault.paths] at hp ⊢; exact Or.inr hp) hc1
      · simp at hc2
        exact hnotin (hc2 ▸ hp)
    rw [ih (acc ++ [(e.1, e.2.mtime)]) hnd' hdisj'
      (fun x hx => hread x (List.mem_cons_of_mem _ hx))
      (fun x hx => hne x (List.mem_cons_of_mem _ hx))]
    simp
theorem collect_canonical {env : Env} (v : Vault)
    (hnd : (Vault.paths v).Nodup)
    (hread : ∀ e ∈ v, e.2.readable = true)
    (hne : ∀ e ∈ v, env.splitText (fullText (noteData e.2)) ≠ []) :
    collectIndexedNotes (v.flatMap (entryRecords env)) =
      v.map (fun e => (e.1, e.2.mtime)) := by
  rw [collectIndexedNotes_eq_foldl]
  have := foldl_collect_canonical v [] hnd (by simp) hread hne
  simpa using this
theorem lookupMtime_map {v : Vault} {p : String} (hnd : (Vault.paths v).Nodup) :
    lookupMtime (v.map (fun e => (e.1, e.2.mtime))) p = getMtime v p := by
  induction v with
  | nil => rfl
  | cons e v ih =>
    by_cases he : e.1 = p
    · unfold lookupMtime getMtime
      subst he
      rw [lookup_eq_some_of_mem hnd (List.mem_cons_self e v)]
      simp [List.find?_cons]
    · have hnd' : (Vault.paths v).Nodup := by
        simp only [Vault.paths, List.map_cons, List.nodup_cons] at hnd
        exact hnd.2
      have hlk : Vault.lookup (e :: v) p = Vault.lookup v p := by
        simp [Vault.lookup, List.find?_cons, he]
      unfold lookupMtime getMtime at ih ⊢
      rw [hlk]
      simpa [List.find?_cons, he] using ih hnd'
/-! ### Sync phase lemmas -/

theorem store_eq_of_records {s1 s2 : Store} (h : s1.records = s2.records) : s1 = s2 := by
  cases s1; cases s2; simp_all
theorem list_contains_true {l : List String} {p : String} (h : p ∈ l) :
    l.contains p = true :=
  List.contains_iff_exists_mem_beq.mpr ⟨p, h, beq_iff_eq.mpr rfl⟩
theorem list_contains_false {l : List String} {p : String} (h : p ∉ l) :
    l.contains p = false := by
  rw [Bool.eq_false_iff]
  intro hc
  obtain ⟨q, hq, hbeq⟩ := List.contains_iff_exists_mem_beq.mp hc
  exact h (beq_iff_eq.mp hbeq ▸ hq)
theorem goodStore_filter {env : Env} {P : List String} {s : Store} (f : Record → Bool)
    (h : GoodStore env P s) : GoodStore env P ⟨s.records.filter f⟩ := by
  constructor
  · intro r hr
    exact h.1 r (List.mem_of_mem_filter hr)
  · exact List.Nodup.sublist (List.Sublist.map _ (List.filter_sublist _)) h.2
theorem block_fresh_of_source_ne {env : Env} {P : List String} {s : Store}
    {p : String} {nd : NoteData} {m : Nat}
    (hinj : TruncInj env P) (hp : p ∈ P) (hgood : GoodStore env P s)
    (hfresh : ∀ r ∈ s.records, r.meta.source ≠ p) :
    ∀ r2 ∈ chunkRecords env p nd m, ∀ r ∈ s.records, r2.id ≠ r.id := by
  intro r2 hr2 r hr heq
  have hf2 := chunkRecords_fields hr2
  have hf := hgood.1 r hr
  have hid : generateDocId env p r2.meta.chunk =
      generateDocId env r.meta.source r.meta.chunk := by
    rw [← hf2.2.2.1, ← hf.1, heq]
  have := generateDocId_inj (hinj.1 p hp) (hinj.1 r.meta.source hf.2)
    (fun hx => hinj.2 p hp r.meta.source hf.2 hx) hid
  exact hfresh r hr this.1.symm
theorem goodStore_append_block {env : Env} {P : List String} {s : Store}
    {p : String} {nd : NoteData} {m : Nat}
    (hinj : TruncInj env P) (hp : p ∈ P) (hgood : GoodStore env P s)
    (hfresh : ∀ r ∈ s.records, r.meta.source ≠ p) :
    GoodStore env P ⟨s.records ++ chunkRecords env p nd m⟩ := by
  constructor
  · intro r hr
    rcases List.mem_append.mp hr with h1 | h2
    · exact hgood.1 r h1
    · have := chunkRecords_fields h2
      exact ⟨this.1 ▸ this.2.2.1, this.1 ▸ hp⟩
  · rw [List.map_append, List.nodup_append]
    refine ⟨hgood.2, chunkRecords_ids_nodup _ _ (hinj.1 p hp), ?_⟩
    intro x hx1 hx2
    obtain ⟨r, hr, rfl⟩ := List.mem_map.mp hx1
    obtain ⟨r2, hr2, hid⟩ := List.mem_map.mp hx2
    exact block_fresh_of_source_ne hinj hp hgood hfresh r2 hr2 r hr hid
theorem foldl_addLoop {env : Env} {v : Vault} {P : List String}
    (ps : List String) (cnt : Nat) (s : Store)
    (hinj : TruncInj env P)
    (hPps : ∀ p ∈ ps, p ∈ P)
    (hmem : ∀ p ∈ ps, p ∈ Vault.paths v)
    (hwfv : VaultWF v)
    (hgood : GoodStore env P s)
    (hfresh : ∀ p ∈ ps, ∀ r ∈ s.records, r.meta.source ≠ p)
    (hndps : ps.Nodup) :
    ps.foldl (addLoop env v (Vault.paths v)) (cnt, s) =
      (cnt + ps.length, ⟨s.records ++ ps.flatMap (fun p => vaultDocRecords env v p)⟩) ∧
    GoodStore env P ⟨s.records ++ ps.flatMap (fun p => vaultDocRecords env v p)⟩ := by
  induction ps generalizing cnt s with
  | nil =>
    constructor
    · simp only [List.foldl_nil, List.flatMap_nil, List.append_nil]
      exact Prod.ext rfl (store_eq_of_records rfl).symm
    · simpa using hgood
  | cons p ps ih =>
    obtain ⟨n, hl⟩ := lookup_isSome_of_mem_paths (hmem p (List.mem_cons_self p ps))
    have hok := readNote_ok_of_WF hwfv hl
    have hvdr : vaultDocRecords env v p = chunkRecords env p (noteData n) (getMtime v p) := by
      unfold vaultDocRecords
      rw [hok]
      rfl
    have hpP : p ∈ P := hPps p (List.mem_cons_self p ps)
    have hfreshp : ∀ r ∈ s.records, r.meta.source ≠ p :=
      fun r hr => hfresh p (List.mem_cons_self p ps) r hr
    have hstep : addLoop env v (Vault.paths v) (cnt, s) p =
        (cnt + 1, ⟨s.records ++ vaultDocRecords env v p⟩) := by
      unfold addLoop
      rw [list_contains_true (hmem p (List.mem_cons_self p ps))]
      simp only [if_pos]
      have haddeq : (addNoteToIndex env v s p).2.1 = s.upsert (vaultDocRecords env v p) := by
        unfold addNoteToIndex vaultDocRecords
        rw [hok]
      rw [haddeq, hvdr]
      refine Prod.ext rfl (store_eq_of_records ?_)
      show (s.upsert (chunkRecords env p (noteData n) (getMtime v p))).records = _
      rw [upsert_of_fresh (block_fresh_of_source_ne hinj hpP hgood hfreshp)]
    have hgood' : GoodStore env P ⟨s.records ++ vaultDocRecords env v p⟩ := by
      rw [hvdr]
      exact goodStore_append_block hinj hpP hgood hfreshp
    have hfresh' : ∀ q ∈ ps, ∀ r ∈ (⟨s.records ++ vaultDocRecords env v p⟩ : Store).records,
        r.meta.source ≠ q := by
      intro q hq r hr
      rcases List.mem_append.mp hr with h1 | h2
      · exact hfresh q (List.mem_cons_of_mem _ hq) r h1
      · rw [hvdr] at h2
        rw [(chunkRecords_fields h2).1]
        intro hc
        rw [hc] at hndps
        exact (List.nodup_cons.mp hndps).1 hq
    have hmem' : ∀ q ∈ ps, q ∈ Vault.paths v := fun q hq => hmem q (List.mem_cons_of_mem _ hq)
    have hP' : ∀ q ∈ ps, q ∈ P := fun q hq => hPps q (List.mem_cons_of_mem _ hq)
    have ihres := ih (cnt + 1) ⟨s.records ++ vaultDocRecords env v p⟩ hP' hmem' hgood' hfresh'
      (List.nodup_cons.mp hndps).2
    rw [List.foldl_cons, hstep]
    constructor
    · rw [ihres.1]
      refine Prod.ext (by simp; omega) (store_eq_of_records ?_)
      show s.records ++ vaultDocRecords env v p ++ ps.flatMap (fun q => vaultDocRecords env v q) = _
      rw [List.flatMap_cons, List.append_assoc]
    · have := ihres.2
      rw [List.append_assoc, ← List.flatMap_cons] at this
      exact this
theorem foldl_removeLoop (ps : List String) (cnt : Nat) (s : Store)
    (hnd : (s.records.map (fun r => r.id)).Nodup) :
    ps.foldl removeLoop (cnt, s) =
      (cnt + ps.length, ⟨s.records.filter (fun r => !(ps.contains r.meta.source))⟩) := by
  induction ps generalizing cnt s with
  | nil =>
    simp only [List.foldl_nil, List.length_nil, Nat.add_zero]
    refine Prod.ext rfl (store_eq_of_records ?_)
    show s.records = _
    symm
    apply List.filter_eq_self.mpr
    intro r hr
    rfl
  | cons p ps ih =>
    have hstep : removeLoop (cnt, s) p =
        (cnt + 1, ⟨s.records.filter (fun r => r.meta.source != p)⟩) := by
      unfold removeLoop
      exact Prod.ext rfl (store_eq_of_records (delete_eq_filter hnd))
    have hnd' : (((s.records.filter (fun r => r.meta.source != p)).map (fun r => r.id))).Nodup :=
      List.Nodup.sublist (List.Sublist.map _ (List.filter_sublist _)) hnd
    rw [List.foldl_cons, hstep, ih (cnt + 1) _ hnd']
    refine Prod.ext (by simp; omega) (store_eq_of_records ?_)
    show (s.records.filter (fun r => r.meta.source != p)).filter
        (fun r => !(ps.contains r.meta.source)) = _
    rw [List.filter_filter]
    apply List.filter_congr
    intro r hr
    rw [List.contains_cons]
    cases hc : ps.contains r.meta.source <;> cases he : r.meta.source == p <;>
      simp [bne, hc, he]
theorem vaultDocRecords_source {env : Env} {v : Vault} {p : String} {r : Record}
    (h : r ∈ vaultDocRecords env v p) : r.meta.source = p := by
  unfold vaultDocRecords at h
  cases hr : readNote v p with
  | error e => rw [hr] at h; cases h
  | ok nd => rw [hr] at h; exact (chunkRecords_fields h).1
theorem changedB_true_iff {vn inx : List (String × Nat)} {p : String} :
    changedB vn inx p = true ↔ lookupMtime vn p > lookupMtime inx p := by
  simp [changedB]
theorem not_contains_cons (x b : String) (l : List String) :
    ((!(l.contains x)) && (x != b)) = !((b :: l).contains x) := by
  rw [List.contains_cons]
  cases hc : l.contains x <;> cases he : x == b <;> simp [bne, hc, he]
theorem updateNote_canonical {env : Env} {v : Vault} {P : List String} {s : Store} {p : String}
    (hinj : TruncInj env P) (hp : p ∈ P) (hgood : GoodStore env P s)
    (hwfv : VaultWF v) (hmem : p ∈ Vault.paths v) :
    (updateNoteIndex env v s p).2.1 =
      ⟨(s.records.filter (fun r => r.meta.source != p)) ++ vaultDocRecords env v p⟩ ∧
    GoodStore env P
      ⟨(s.records.filter (fun r => r.meta.source != p)) ++ vaultDocRecords env v p⟩ := by
  obtain ⟨n, hl⟩ := lookup_isSome_of_mem_paths hmem
  have hok := readNote_ok_of_WF hwfv hl
  have hvdr : vaultDocRecords env v p = chunkRecords env p (noteData n) (getMtime v p) := by
    unfold vaultDocRecords
    rw [hok]
    rfl
  have hdel : (deleteNoteFromIndex s p).2 =
      ⟨s.records.filter (fun r => r.meta.source != p)⟩ :=
    store_eq_of_records (delete_eq_filter hgood.2)
  have hgoodf : GoodStore env P ⟨s.records.filter (fun r => r.meta.source != p)⟩ :=
    goodStore_filter _ hgood
  have hfreshf : ∀ r ∈ (⟨s.records.filter (fun r => r.meta.source != p)⟩ : Store).records,
      r.meta.source ≠ p := by
    intro r hr
    exact bne_iff_ne.mp (List.mem_filter.mp hr).2
  constructor
  · show (addNoteToIndex env v (deleteNoteFromIndex s p).2 p).2.1 = _
    rw [hdel]
    have haddeq : (addNoteToIndex env v ⟨s.records.filter (fun r => r.meta.source != p)⟩ p).2.1 =
        Store.upsert ⟨s.records.filter (fun r => r.meta.source != p)⟩
          (chunkRecords env p (noteData n) (getMtime v p)) := by
      unfold addNoteToIndex
      rw [hok]
      rfl
    rw [haddeq]
    refine store_eq_of_records ?_
    show (Store.upsert _ _).records = _
    rw [upsert_of_fresh (block_fresh_of_source_ne hinj hp hgoodf hfreshf), hvdr]
  · rw [hvdr]
    exact goodStore_append_block hinj hp hgoodf hfreshf
theorem foldl_checkLoop {env : Env} {v : Vault} {P : List String}
    (vn inx : List (String × Nat)) (ps : List String) (cu cc : Nat) (s : Store)
    (hinj : TruncInj env P)
    (hPps : ∀ p ∈ ps, p ∈ P)
    (hmem : ∀ p ∈ ps, p ∈ Vault.paths v)
    (hwfv : VaultWF v)
    (hgood : GoodStore env P s)
    (hndps : ps.Nodup) :
    ps.foldl (checkLoop env v vn inx) (cu, cc, s) =
      (cu + (ps.filter (changedB vn inx)).length,
       cc + (ps.filter (fun p => !(changedB vn inx p))).length,
       ⟨(s.records.filter (fun r =>
           !((ps.filter (changedB vn inx)).contains r.meta.source)))
         ++ (ps.filter (changedB vn inx)).flatMap (fun p => vaultDocRecords env v p)⟩) ∧
    GoodStore env P
      ⟨(s.records.filter (fun r =>
          !((ps.filter (changedB vn inx)).contains r.meta.source)))
        ++ (ps.filter (changedB vn inx)).flatMap (fun p => vaultDocRecords env v p)⟩ := by
  induction ps generalizing cu cc s with
  | nil =>
    have hid : s.records.filter (fun r =>
        !((([] : List String).filter (changedB vn inx)).contains r.meta.source)) = s.records :=
      List.filter_eq_self.mpr (fun r _ => rfl)
    constructor
    · simp only [List.foldl_nil, List.filter_nil, List.length_nil, Nat.add_zero,
        List.flatMap_nil, List.append_nil]
      refine Prod.ext rfl (Prod.ext rfl (store_eq_of_records ?_))
      show s.records = s.records.filter _
      exact (List.filter_eq_self.mpr (fun r _ => rfl)).symm
    · have hs : (⟨(s.records.filter (fun r =>
          !((([] : List String).filter (changedB vn inx)).contains r.meta.source)))
          ++ (([] : List String).filter (changedB vn inx)).flatMap
              (fun p => vaultDocRecords env v p)⟩ : Store) = s := by
        refine store_eq_of_records ?_
        rw [List.filter_nil, List.flatMap_nil, List.append_nil]
        exact List.filter_eq_self.mpr (fun r _ => rfl)
      rw [hs]
      exact hgood
  | cons p ps ih =>
    have hpP := hPps p (List.mem_cons_self p ps)
    have hpv := hmem p (List.mem_cons_self p ps)
    have hP' : ∀ q ∈ ps, q ∈ P := fun q hq => hPps q (List.mem_cons_of_mem _ hq)
    have hmem' : ∀ q ∈ ps, q ∈ Vault.paths v := fun q hq => hmem q (List.mem_cons_of_mem _ hq)
    have hnd' := (List.nodup_cons.mp hndps).2
    have hpnotin := (List.nodup_cons.mp hndps).1
    by_cases hc : lookupMtime vn p > lookupMtime inx p
    · have hcb : changedB vn inx p = true := changedB_true_iff.mpr hc
      have hstep : checkLoop env v vn inx (cu, cc, s) p =
          (cu + 1, cc, (updateNoteIndex env v s p).2.1) := by
        unfold checkLoop
        rw [if_pos hc]
      obtain ⟨hupd, hgood'⟩ := updateNote_canonical hinj hpP hgood hwfv hpv
      have ihres := ih (cu + 1) cc _ hP' hmem' hgood' hnd'
      have hchAll : (p :: ps).filter (changedB vn inx) = p :: ps.filter (changedB vn inx) :=
        List.filter_cons_of_pos hcb
      have hunAll : (p :: ps).filter (fun q => !(changedB vn inx q)) =
          ps.filter (fun q => !(changedB vn inx q)) :=
        List.filter_cons_of_neg (by simp [hcb])
      have hpnotinCh : p ∉ ps.filter (changedB vn inx) :=
        fun hcont => hpnotin (List.mem_of_mem_filter hcont)
      have hblockkeep : (vaultDocRecords env v p).filter (fun r =>
          !((ps.filter (changedB vn inx)).contains r.meta.source)) = vaultDocRecords env v p :=
        List.filter_eq_self.mpr (fun r hr => by
          rw [vaultDocRecords_source hr, list_contains_false hpnotinCh]
          rfl)
      have hrec : ((s.records.filter (fun r => r.meta.source != p))
            ++ vaultDocRecords env v p).filter (fun r =>
            !((ps.filter (changedB vn inx)).contains r.meta.source))
          ++ (ps.filter (changedB vn inx)).flatMap (fun q => vaultDocRecords env v q) =
          s.records.filter (fun r =>
            !(((p :: ps).filter (changedB vn inx)).contains r.meta.source))
          ++ ((p :: ps).filter (changedB vn inx)).flatMap (fun q => vaultDocRecords env v q) := by
        rw [List.filter_append, hblockkeep, List.filter_filter, hchAll, List.flatMap_cons,
          List.append_assoc]
        congr 1
        apply List.filter_congr
        intro r hr
        exact not_contains_cons r.meta.source p (ps.filter (changedB vn inx))
      constructor
      · rw [List.foldl_cons, hstep, hupd, ihres.1]
        refine Prod.ext ?_ (Prod.ext ?_ ?_)
        · show cu + 1 + (ps.filter (changedB vn inx)).length = _
          rw [hchAll, List.length_cons]
          omega
        · show cc + _ = cc + _
          rw [hunAll]
        · exact store_eq_of_records hrec
      · exact (store_eq_of_records hrec) ▸ ihres.2
    · have hcb : changedB vn inx p = false := by
        rw [Bool.eq_false_iff]
        intro hcont
        exact hc (changedB_true_iff.mp hcont)
      have hstep : checkLoop env v vn inx (cu, cc, s) p = (cu, cc + 1, s) := by
        unfold checkLoop
        rw [if_neg hc]
      have ihres := ih cu (cc + 1) s hP' hmem' hgood hnd'
      have hchAll : (p :: ps).filter (changedB vn inx) = ps.filter (changedB vn inx) :=
        List.filter_cons_of_neg (by simp [hcb])
      have hunAll : (p :: ps).filter (fun q => !(changedB vn inx q)) =
          p :: ps.filter (fun q => !(changedB vn inx q)) :=
        List.filter_cons_of_pos (by simp [hcb])
      constructor
      · rw [List.foldl_cons, hstep, ihres.1, hchAll, hunAll]
        refine Prod.ext rfl (Prod.ext ?_ rfl)
        show cc + 1 + (ps.filter (fun q => !(changedB vn inx q))).length =
          cc + (p :: ps.filter (fun q => !(changedB vn inx q))).length
        rw [List.length_cons]
        omega
      · rw [hchAll]
        exact ihres.2
theorem lookup_append_some {w1 w2 : Vault} {p : String} {n : Note}
    (h : Vault.lookup w1 p = some n) : Vault.lookup (w1 ++ w2) p = some n := by
  unfold Vault.lookup at h ⊢
  rw [List.find?_append]
  cases hf : w1.find? (fun e => e.1 = p) with
  | none => rw [hf] at h; cases h
  | some e => rw [hf] at h; rw [Option.or]; simpa using h
theorem lookup_append_none {w1 w2 : Vault} {p : String}
    (h : p ∉ Vault.paths w1) : Vault.lookup (w1 ++ w2) p = Vault.lookup w2 p := by
  unfold Vault.lookup
  rw [List.find?_append]
  have hf : w1.find? (fun e => e.1 = p) = none := by
    apply List.find?_eq_none.mpr
    intro e he
    simp only [decide_eq_true_eq]
    intro hc
    exact h (List.mem_map.mpr ⟨e, he, hc⟩)
  rw [hf, Option.none_or]
theorem paths_append (w1 w2 : Vault) :
    Vault.paths (w1 ++ w2) = Vault.paths w1 ++ Vault.paths w2 := by
  unfold Vault.paths
  rw [List.map_append]
theorem paths_filter_sublist (u : Vault) (f : String × Note → Bool) :
    (Vault.paths (u.filter f)).Sublist (Vault.paths u) :=
  List.Sublist.map _ (List.filter_sublist u)
theorem lookup_filter_of_mem {u : Vault} {f : String × Note → Bool} {p : String} {n : Note}
    (hnd : (Vault.paths u).Nodup) (hl : Vault.lookup u p = some n) (hf : f (p, n) = true) :
    Vault.lookup (u.filter f) p = some n := by
  apply lookup_eq_some_of_mem (List.Nodup.sublist (paths_filter_sublist u f) hnd)
  exact List.mem_filter.mpr ⟨mem_of_lookup_eq_some hl, hf⟩
theorem not_mem_paths_filter {u : Vault} {f : String × Note → Bool} {p : String} {n : Note}
    (hnd : (Vault.paths u).Nodup) (hl : Vault.lookup u p = some n) (hf : f (p, n) = false) :
    p ∉ Vault.paths (u.filter f) := by
  intro hc
  obtain ⟨e, he, hep⟩ := List.mem_map.mp hc
  obtain ⟨heu, hfe⟩ := List.mem_filter.mp he
  have : Vault.lookup u e.1 = some e.2 := lookup_eq_some_of_mem hnd (by cases e; exact heu)
  rw [hep, hl] at this
  have he2 : e.2 = n := by injection this with h2; exact h2.symm
  rw [show e = (p, n) from by cases e; simp_all] at hfe
  rw [hfe] at hf
  cases hf
theorem syncIndex_true_eq (env : Env) (v : Vault) (s : Store) :
    syncIndex env v s true =
      ({ added := (addPhase env v (vaultPathsOf v) (indexedPathsOf s) s).1,
         removed := (removePhase (vaultPathsOf v) (indexedPathsOf s)
           (addPhase env v (vaultPathsOf v) (indexedPathsOf s) s).2).1,
         updated := (checkPhase env v (vaultPathsOf v) (indexedPathsOf s)
           (vaultNotesOf v) (indexedNotesOf s)
           (removePhase (vaultPathsOf v) (indexedPathsOf s)
             (addPhase env v (vaultPathsOf v) (indexedPathsOf s) s).2).2).1,
         unchanged := (checkPhase env v (vaultPathsOf v) (indexedPathsOf s)
           (vaultNotesOf v) (indexedNotesOf s)
           (removePhase (vaultPathsOf v) (indexedPathsOf s)
             (addPhase env v (vaultPathsOf v) (indexedPathsOf s) s).2).2).2.1 },
       (checkPhase env v (vaultPathsOf v) (indexedPathsOf s)
         (vaultNotesOf v) (indexedNotesOf s)
         (removePhase (vaultPathsOf v) (indexedPathsOf s)
           (addPhase env v (vaultPathsOf v) (indexedPathsOf s) s).2).2).2.2) :=
  rfl
theorem syncIndex_false_eq (env : Env) (v : Vault) (s : Store) :
    syncIndex env v s false =
      ({ added := (vaultNotesOf v).length, removed := 0, updated := 0, unchanged := 0 },
       (indexAllNotes env v s).2) :=
  rfl
theorem vaultPathsOf_eq (v : Vault) : vaultPathsOf v = Vault.paths v := by
  unfold vaultPathsOf vaultNotesOf
  rw [List.map_map]
  rfl
/-! ### Diff membership and phase instantiation lemmas -/

theorem mem_diffAdd {u v : Vault} {p : String} :
    p ∈ diffAdd u v ↔ p ∈ Vault.paths v ∧ p ∉ Vault.paths u := by
  unfold diffAdd
  simp only [List.mem_filter, Bool.not_eq_true']
  constructor
  · rintro ⟨h1, h2⟩
    refine ⟨h1, fun hc => ?_⟩
    rw [list_contains_true hc] at h2
    cases h2
  · rintro ⟨h1, h2⟩
    exact ⟨h1, list_contains_false h2⟩
theorem mem_diffRemove {u v : Vault} {p : String} :
    p ∈ diffRemove u v ↔ p ∈ Vault.paths u ∧ p ∉ Vault.paths v := by
  unfold diffRemove
  simp only [List.mem_filter, Bool.not_eq_true']
  constructor
  · rintro ⟨h1, h2⟩
    refine ⟨h1, fun hc => ?_⟩
    rw [list_contains_true hc] at h2
    cases h2
  · rintro ⟨h1, h2⟩
    exact ⟨h1, list_contains_false h2⟩
theorem mem_diffCommon {u v : Vault} {p : String} :
    p ∈ diffCommon u v ↔ p ∈ Vault.paths v ∧ p ∈ Vault.paths u := by
  unfold diffCommon
  simp only [List.mem_filter]
  constructor
  · rintro ⟨h1, h2⟩
    refine ⟨h1, ?_⟩
    obtain ⟨q, hq, hbeq⟩ := List.contains_iff_exists_mem_beq.mp h2
    exact beq_iff_eq.mp hbeq ▸ hq
  · rintro ⟨h1, h2⟩
    exact ⟨h1, list_contains_true h2⟩
theorem mem_diffChanged {u v : Vault} {p : String} :
    p ∈ diffChanged u v ↔ p ∈ diffCommon u v ∧ getMtime v p > getMtime u p := by
  unfold diffChanged
  simp [List.mem_filter]
theorem mem_diffUnchanged {u v : Vault} {p : String} :
    p ∈ diffUnchanged u v ↔ p ∈ diffCommon u v ∧ ¬(getMtime v p > getMtime u p) := by
  unfold diffUnchanged
  simp [List.mem_filter]
theorem diffAdd_nodup {u v : Vault} (hndv : (Vault.paths v).Nodup) :
    (diffAdd u v).Nodup :=
  List.Nodup.filter _ hndv
theorem diffRemove_nodup {u v : Vault} (hndu : (Vault.paths u).Nodup) :
    (diffRemove u v).Nodup :=
  List.Nodup.filter _ hndu
theorem diffCommon_nodup {u v : Vault} (hndv : (Vault.paths v).Nodup) :
    (diffCommon u v).Nodup :=
  List.Nodup.filter _ hndv
theorem diffChanged_nodup {u v : Vault} (hndv : (Vault.paths v).Nodup) :
    (diffChanged u v).Nodup :=
  List.Nodup.filter _ (diffCommon_nodup hndv)
theorem filter_flatMap_entry {env : Env} (u : Vault) (f : String → Bool) :
    (u.flatMap (entryRecords env)).filter (fun r => f r.meta.source) =
      (u.filter (fun e => f e.1)).flatMap (entryRecords env) := by
  induction u with
  | nil => rfl
  | cons e u ih =>
    rw [List.flatMap_cons, List.filter_append, ih]
    cases hf : f e.1 with
    | true =>
      have hcons : List.filter (fun e : String × Note => f e.1) (e :: u) =
          e :: List.filter (fun e => f e.1) u := by
        simp [List.filter_cons, hf]
      rw [hcons, List.flatMap_cons]
      congr 1
      apply List.filter_eq_self.mpr
      intro r hr
      rw [(entryRecords_fields hr).1, hf]
    | false =>
      have hcons : List.filter (fun e : String × Note => f e.1) (e :: u) =
          List.filter (fun e => f e.1) u := by
        simp [List.filter_cons, hf]
      rw [hcons]
      have hnil : (entryRecords env e).filter (fun r => f r.meta.source) = [] := by
        apply List.filter_eq_nil_iff.mpr
        intro r hr
        rw [(entryRecords_fields hr).1, hf]
        exact Bool.false_ne_true
      rw [hnil, List.nil_append]
theorem vaultDocRecords_eq_entryNote {env : Env} {v : Vault} {p : String}
    (hwfv : VaultWF v) (hp : p ∈ Vault.paths v) :
    vaultDocRecords env v p = entryRecords env (p, vaultNote v p) := by
  obtain ⟨n, hl⟩ := lookup_isSome_of_mem_paths hp
  have hok := readNote_ok_of_WF hwfv hl
  have hvn : vaultNote v p = n := by
    unfold vaultNote
    rw [hl]
    rfl
  have hr : n.readable = true := hwfv.2 (p, n) (mem_of_lookup_eq_some hl)
  unfold vaultDocRecords entryRecords
  rw [hok, hvn]
  simp only [hr, if_pos]
  rw [getMtime_eq hl]
  rfl
theorem goodStore_canonical {env : Env} {u : Vault} {P : List String}
    (hnd : (Vault.paths u).Nodup) (hinj : TruncInj env P)
    (hsub : ∀ p ∈ Vault.paths u, p ∈ P) :
    GoodStore env P ⟨u.flatMap (entryRecords env)⟩ := by
  constructor
  · intro r hr
    obtain ⟨e, he, hre⟩ := mem_flatMap_entry.mp hr
    have hf := entryRecords_fields hre
    constructor
    · rw [hf.1]
      exact hf.2.2
    · rw [hf.1]
      exact hsub e.1 (List.mem_map.mpr ⟨e, he, rfl⟩)
  · exact flatMap_entry_ids_nodup u hnd (hinj.mono hsub)
theorem indexedNotesOf_canonical {env : Env} {u : Vault} {s : Store}
    (hs : s.records = u.flatMap (entryRecords env))
    (hndu : (Vault.paths u).Nodup)
    (hreadu : ∀ e ∈ u, e.2.readable = true)
    (hneu : ∀ e ∈ u, env.splitText (fullText (noteData e.2)) ≠ []) :
    indexedNotesOf s = vaultNotesOf u := by
  unfold indexedNotesOf vaultNotesOf
  rw [hs]
  exact collect_canonical u hndu hreadu hneu
theorem indexedPathsOf_canonical {env : Env} {u : Vault} {s : Store}
    (hs : s.records = u.flatMap (entryRecords env))
    (hndu : (Vault.paths u).Nodup)
    (hreadu : ∀ e ∈ u, e.2.readable = true)
    (hneu : ∀ e ∈ u, env.splitText (fullText (noteData e.2)) ≠ []) :
    indexedPathsOf s = Vault.paths u := by
  unfold indexedPathsOf
  rw [indexedNotesOf_canonical hs hndu hreadu hneu]
  exact vaultPathsOf_eq u
theorem changedB_vaultNotes {u v : Vault} (hndu : (Vault.paths u).Nodup)
    (hndv : (Vault.paths v).Nodup) (p : String) :
    changedB (vaultNotesOf v) (vaultNotesOf u) p =
      decide (getMtime v p > getMtime u p) := by
  unfold changedB vaultNotesOf
  rw [lookupMtime_map hndv, lookupMtime_map hndu]
theorem addPhase_canonical {env : Env} {u v : Vault} {P : List String} {s : Store}
    (hinj : TruncInj env P)
    (hPv : ∀ p ∈ Vault.paths v, p ∈ P)
    (hwfv : VaultWF v)
    (hgood : GoodStore env P s)
    (hsrc : ∀ r ∈ s.records, r.meta.source ∈ Vault.paths u) :
    addPhase env v (Vault.paths v) (Vault.paths u) s =
      ((diffAdd u v).length,
        ⟨s.records ++ (diffAdd u v).flatMap (fun p => vaultDocRecords env v p)⟩) ∧
    GoodStore env P ⟨s.records ++ (diffAdd u v).flatMap (fun p => vaultDocRecords env v p)⟩ := by
  have hres := @foldl_addLoop env v P (diffAdd u v) 0 s hinj
    (fun p hp => hPv p (mem_diffAdd.mp hp).1)
    (fun p hp => (mem_diffAdd.mp hp).1)
    hwfv hgood
    (fun p hp r hr hc => (mem_diffAdd.mp hp).2 (hc ▸ hsrc r hr))
    (diffAdd_nodup hwfv.1)
  constructor
  · show (diffAdd u v).foldl (addLoop env v (Vault.paths v)) ((0 : Nat), s) = _
    rw [hres.1]
    simp
  · exact hres.2
theorem removePhase_canonical {u v : Vault} {s : Store}
    (hnd : (s.records.map (fun r => r.id)).Nodup) :
    removePhase (Vault.paths v) (Vault.paths u) s =
      ((diffRemove u v).length,
        ⟨s.records.filter (fun r => !((diffRemove u v).contains r.meta.source))⟩) := by
  show (diffRemove u v).foldl removeLoop ((0 : Nat), s) = _
  rw [foldl_removeLoop (diffRemove u v) 0 s hnd]
  simp
theorem checkPhase_canonical {env : Env} {u v : Vault} {P : List String} {s : Store}
    (hinj : TruncInj env P)
    (hPv : ∀ p ∈ Vault.paths v, p ∈ P)
    (hwfv : VaultWF v)
    (hndu : (Vault.paths u).Nodup)
    (hgood : GoodStore env P s) :
    checkPhase env v (Vault.paths v) (Vault.paths u) (vaultNotesOf v) (vaultNotesOf u) s =
      ((diffChanged u v).length, (diffUnchanged u v).length,
        ⟨s.records.filter (fun r => !((diffChanged u v).contains r.meta.source))
          ++ (diffChanged u v).flatMap (fun p => vaultDocRecords env v p)⟩) ∧
    GoodStore env P
      ⟨s.records.filter (fun r => !((diffChanged u v).contains r.meta.source))
        ++ (diffChanged u v).flatMap (fun p => vaultDocRecords env v p)⟩ := by
  have hfilch : (diffCommon u v).filter (changedB (vaultNotesOf v) (vaultNotesOf u)) =
      diffChanged u v := by
    unfold diffChanged
    apply List.filter_congr
    intro p hp
    exact changedB_vaultNotes hndu hwfv.1 p
  have hfilun : (diffCommon u v).filter
      (fun p => !(changedB (vaultNotesOf v) (vaultNotesOf u) p)) = diffUnchanged u v := by
    unfold diffUnchanged
    apply List.filter_congr
    intro p hp
    rw [changedB_vaultNotes hndu hwfv.1 p]
  have hres := foldl_checkLoop (vaultNotesOf v) (vaultNotesOf u) (diffCommon u v) 0 0 s hinj
    (fun p hp => hPv p (mem_diffCommon.mp hp).1)
    (fun p hp => (mem_diffCommon.mp hp).1)
    hwfv hgood (diffCommon_nodup hwfv.1)
  rw [hfilch, hfilun] at hres
  constructor
  · show (diffCommon u v).foldl (checkLoop env v (vaultNotesOf v) (vaultNotesOf u))
      ((0 : Nat), (0 : Nat), s) = _
    rw [hres.1]
    simp
  · exact hres.2
theorem keepPred_eq {u v : Vault} {p : String} (hpu : p ∈ Vault.paths u) :
    ((!((diffChanged u v).contains p)) && (!((diffRemove u v).contains p))) =
      ((Vault.paths v).contains p && !(decide (getMtime v p > getMtime u p))) := by
  by_cases hv : p ∈ Vault.paths v
  · have hcv := list_contains_true hv
    have hnr : (diffRemove u v).contains p = false :=
      list_contains_false (fun hc => (mem_diffRemove.mp hc).2 hv)
    by_cases hch : getMtime v p > getMtime u p
    · have hcc : (diffChanged u v).contains p = true :=
        list_contains_true (mem_diffChanged.mpr ⟨mem_diffCommon.mpr ⟨hv, hpu⟩, hch⟩)
      rw [hcv, hnr, hcc]
      simp [hch]
    · have hcc : (diffChanged u v).contains p = false :=
        list_contains_false (fun hc => hch (mem_diffChanged.mp hc).2)
      rw [hcv, hnr, hcc]
      simp [hch]
  · have hcv : (Vault.paths v).contains p = false := list_contains_false hv
    have hr : (diffRemove u v).contains p = true :=
      list_contains_true (mem_diffRemove.mpr ⟨hpu, hv⟩)
    rw [hcv, hr]
    simp
theorem canonVault_records {env : Env} {u v : Vault}
    (hwfv : VaultWF v) :
    ((u.flatMap (entryRecords env)).filter
        (fun r => !((diffRemove u v).contains r.meta.source))
      ++ (diffAdd u v).flatMap (fun p => vaultDocRecords env v p)).filter
        (fun r => !((diffChanged u v).contains r.meta.source))
      ++ (diffChanged u v).flatMap (fun p => vaultDocRecords env v p) =
    (canonVault u v).flatMap (entryRecords env) := by
  have haddkeepH : ((diffAdd u v).flatMap (fun p => vaultDocRecords env v p)).filter
      (fun r => !((diffChanged u v).contains r.meta.source)) =
      (diffAdd u v).flatMap (fun p => vaultDocRecords env v p) := by
    apply List.filter_eq_self.mpr
    intro r hr
    obtain ⟨p, hp, hrp⟩ := List.mem_flatMap.mp hr
    rw [vaultDocRecords_source hrp, list_contains_false (fun hc =>
      (mem_diffAdd.mp hp).2 (mem_diffCommon.mp (mem_diffChanged.mp hc).1).2)]
    rfl
  have hcomb : ((u.flatMap (entryRecords env)).filter
        (fun r => !((diffRemove u v).contains r.meta.source))).filter
        (fun r => !((diffChanged u v).contains r.meta.source)) =
      (u.filter (fun e =>
        (Vault.paths v).contains e.1 && !(decide (getMtime v e.1 > getMtime u e.1)))).flatMap
        (entryRecords env) := by
    rw [List.filter_filter]
    have hstep1 : (u.flatMap (entryRecords env)).filter
        (fun a => (!((diffChanged u v).contains a.meta.source)) &&
          (!((diffRemove u v).contains a.meta.source))) =
        (u.filter (fun e => (!((diffChanged u v).contains e.1)) &&
          (!((diffRemove u v).contains e.1)))).flatMap (entryRecords env) :=
      filter_flatMap_entry u (fun x =>
        (!((diffChanged u v).contains x)) && (!((diffRemove u v).contains x)))
    rw [hstep1]
    congr 1
    apply List.filter_congr
    intro e he
    exact keepPred_eq (List.mem_map.mpr ⟨e, he, rfl⟩)
  have hrhs : (canonVault u v).flatMap (entryRecords env) =
      (u.filter (fun e =>
        (Vault.paths v).contains e.1 && !(decide (getMtime v e.1 > getMtime u e.1)))).flatMap
        (entryRecords env)
      ++ ((diffAdd u v).flatMap (fun p => vaultDocRecords env v p)
        ++ (diffChanged u v).flatMap (fun p => vaultDocRecords env v p)) := by
    unfold canonVault
    rw [List.flatMap_append, List.flatMap_map]
    congr 1
    have hcongr : ((diffAdd u v) ++ (diffChanged u v)).flatMap
        (fun a => entryRecords env ((fun p => (p, vaultNote v p)) a)) =
        ((diffAdd u v) ++ (diffChanged u v)).flatMap (fun p => vaultDocRecords env v p) := by
      apply flatMap_congr_mem
      intro p hp
      have hpv : p ∈ Vault.paths v := by
        rcases List.mem_append.mp hp with h1 | h2
        · exact (mem_diffAdd.mp h1).1
        · exact (mem_diffCommon.mp (mem_diffChanged.mp h2).1).1
      exact (vaultDocRecords_eq_entryNote hwfv hpv).symm
    rw [hcongr, List.flatMap_append]
  rw [List.filter_append, haddkeepH, hcomb, hrhs, List.append_assoc]
theorem syncIndex_canonical {env : Env} {u v : Vault} {s : Store}
    (hndu : (Vault.paths u).Nodup)
    (hreadu : ∀ e ∈ u, e.2.readable = true)
    (hneu : ∀ e ∈ u, env.splitText (fullText (noteData e.2)) ≠ [])
    (hwfv : VaultWF v)
    (hs : s.records = u.flatMap (entryRecords env))
    (hinj : TruncInj env (Vault.paths u ++ Vault.paths v)) :
    (syncIndex env v s true).1 =
      { added := (diffAdd u v).length, removed := (diffRemove u v).length,
        updated := (diffChanged u v).length, unchanged := (diffUnchanged u v).length } ∧
    (syncIndex env v s true).2.records = (canonVault u v).flatMap (entryRecords env) := by
  have hPu : ∀ p ∈ Vault.paths u, p ∈ Vault.paths u ++ Vault.paths v :=
    fun p hp => List.mem_append_left _ hp
  have hPv : ∀ p ∈ Vault.paths v, p ∈ Vault.paths u ++ Vault.paths v :=
    fun p hp => List.mem_append_right _ hp
  have hseq : s = ⟨u.flatMap (entryRecords env)⟩ := store_eq_of_records hs
  subst hseq
  have hgood0 : GoodStore env (Vault.paths u ++ Vault.paths v)
      ⟨u.flatMap (entryRecords env)⟩ := goodStore_canonical hndu hinj hPu
  have hip : indexedPathsOf (⟨u.flatMap (entryRecords env)⟩ : Store) = Vault.paths u :=
    indexedPathsOf_canonical rfl hndu hreadu hneu
  have hin : indexedNotesOf (⟨u.flatMap (entryRecords env)⟩ : Store) = vaultNotesOf u :=
    indexedNotesOf_canonical rfl hndu hreadu hneu
  have haddfull : addPhase env v (Vault.paths v) (Vault.paths u) ⟨u.flatMap (entryRecords env)⟩ =
      ((diffAdd u v).length,
        ⟨u.flatMap (entryRecords env)
          ++ (diffAdd u v).flatMap (fun p => vaultDocRecords env v p)⟩) ∧
      GoodStore env (Vault.paths u ++ Vault.paths v)
        ⟨u.flatMap (entryRecords env)
          ++ (diffAdd u v).flatMap (fun p => vaultDocRecords env v p)⟩ :=
    addPhase_canonical hinj hPv hwfv hgood0 (fun r hr => flatMap_entry_source_mem hr)
  have h1 := haddfull.1
  have hgoodA := haddfull.2
  have haddkeep : ((diffAdd u v).flatMap (fun p => vaultDocRecords env v p)).filter
      (fun r => !((diffRemove u v).contains r.meta.source)) =
      (diffAdd u v).flatMap (fun p => vaultDocRecords env v p) := by
    apply List.filter_eq_self.mpr
    intro r hr
    obtain ⟨p, hp, hrp⟩ := List.mem_flatMap.mp hr
    rw [vaultDocRecords_source hrp, list_contains_false (fun hc =>
      (mem_diffRemove.mp hc).2 (mem_diffAdd.mp hp).1)]
    rfl
  have hremrec : (u.flatMap (entryRecords env)
        ++ (diffAdd u v).flatMap (fun p => vaultDocRecords env v p)).filter
        (fun r => !((diffRemove u v).contains r.meta.source)) =
      (u.flatMap (entryRecords env)).filter
        (fun r => !((diffRemove u v).contains r.meta.source))
      ++ (diffAdd u v).flatMap (fun p => vaultDocRecords env v p) := by
    rw [List.filter_append, haddkeep]
  have h2 : removePhase (Vault.paths v) (Vault.paths u)
      ((addPhase env v (Vault.paths v) (Vault.paths u) ⟨u.flatMap (entryRecords env)⟩).2) =
      ((diffRemove u v).length,
        ⟨(u.flatMap (entryRecords env)).filter
            (fun r => !((diffRemove u v).contains r.meta.source))
          ++ (diffAdd u v).flatMap (fun p => vaultDocRecords env v p)⟩) := by
    rw [h1]
    show removePhase (Vault.paths v) (Vault.paths u)
      (⟨u.flatMap (entryRecords env)
        ++ (diffAdd u v).flatMap (fun p => vaultDocRecords env v p)⟩ : Store) = _
    rw [removePhase_canonical hgoodA.2]
    exact Prod.ext rfl (store_eq_of_records hremrec)
  have hgoodB : GoodStore env (Vault.paths u ++ Vault.paths v)
      ⟨(u.flatMap (entryRecords env)).filter
          (fun r => !((diffRemove u v).contains r.meta.source))
        ++ (diffAdd u v).flatMap (fun p => vaultDocRecords env v p)⟩ := by
    have hg := goodStore_filter (fun r => !((diffRemove u v).contains r.meta.source)) hgoodA
    rw [show (⟨(u.flatMap (entryRecords env)
        ++ (diffAdd u v).flatMap (fun p => vaultDocRecords env v p)).filter
        (fun r => !((diffRemove u v).contains r.meta.source))⟩ : Store) =
        ⟨(u.flatMap (entryRecords env)).filter
            (fun r => !((diffRemove u v).contains r.meta.source))
          ++ (diffAdd u v).flatMap (fun p => vaultDocRecords env v p)⟩ from
      store_eq_of_records hremrec] at hg
    exact hg
  have hcheckfull := checkPhase_canonical hinj hPv hwfv hndu hgoodB
  have h3 : checkPhase env v (Vault.paths v) (Vault.paths u) (vaultNotesOf v) (vaultNotesOf u)
      ((removePhase (Vault.paths v) (Vault.paths u)
        ((addPhase env v (Vault.paths v) (Vault.paths u) ⟨u.flatMap (entryRecords env)⟩).2)).2) =
      ((diffChanged u v).length, (diffUnchanged u v).length,
        ⟨((u.flatMap (entryRecords env)).filter
              (fun r => !((diffRemove u v).contains r.meta.source))
            ++ (diffAdd u v).flatMap (fun p => vaultDocRecords env v p)).filter
            (fun r => !((diffChanged u v).contains r.meta.source))
          ++ (diffChanged u v).flatMap (fun p => vaultDocRecords env v p)⟩) := by
    rw [h2]
    exact hcheckfull.1
  constructor
  · rw [syncIndex_true_eq, vaultPathsOf_eq, hip, hin, h3, h2, h1]
  · rw [syncIndex_true_eq, vaultPathsOf_eq, hip, hin, h3]
    exact canonVault_records hwfv
theorem paths_map_note (ps : List String) (f : String → Note) :
    Vault.paths (ps.map (fun p => (p, f p))) = ps := by
  unfold Vault.paths
  rw [List.map_map]
  exact List.map_id' ps
theorem fullText_ne (nd : NoteData) : fullText nd ≠ "" := by
  intro hc
  have hlen := congrArg String.length hc
  rw [fullText] at hlen
  rw [String.length_append, String.length_append, String.length_append] at hlen
  have h2 : ("# " : String).length = 2 := rfl
  have h0 : ("" : String).length = 0 := rfl
  omega
theorem canonVault_paths_sub {u v : Vault} {p : String}
    (hp : p ∈ Vault.paths (canonVault u v)) : p ∈ Vault.paths v := by
  unfold canonVault at hp
  rw [paths_append] at hp
  rcases List.mem_append.mp hp with h1 | h2
  · obtain ⟨e, he, hep⟩ := List.mem_map.mp h1
    obtain ⟨heu, hfe⟩ := List.mem_filter.mp he
    have := (Bool.and_eq_true _ _).mp hfe
    obtain ⟨q, hq, hbeq⟩ := List.contains_iff_exists_mem_beq.mp this.1
    rw [← hep]
    exact beq_iff_eq.mp hbeq ▸ hq
  · rw [paths_map_note] at h2
    rcases List.mem_append.mp h2 with h3 | h4
    · exact (mem_diffAdd.mp h3).1
    · exact (mem_diffCommon.mp (mem_diffChanged.mp h4).1).1
theorem canonVault_nodup {u v : Vault} (hndu : (Vault.paths u).Nodup)
    (hndv : (Vault.paths v).Nodup) : (Vault.paths (canonVault u v)).Nodup := by
  unfold canonVault
  rw [paths_append, paths_map_note, List.nodup_append]
  refine ⟨List.Nodup.sublist (paths_filter_sublist u _) hndu, ?_, ?_⟩
  · rw [List.nodup_append]
    refine ⟨diffAdd_nodup hndv, diffChanged_nodup hndv, ?_⟩
    intro p hp1 hp2
    exact (mem_diffAdd.mp hp1).2 (mem_diffCommon.mp (mem_diffChanged.mp hp2).1).2
  · intro p hp1 hp2
    obtain ⟨e, he, hep⟩ := List.mem_map.mp hp1
    obtain ⟨heu, hfe⟩ := List.mem_filter.mp he
    have hfe2 := (Bool.and_eq_true _ _).mp hfe
    have hpu : p ∈ Vault.paths u := by
      rw [← hep]
      exact List.mem_map.mpr ⟨e, heu, rfl⟩
    rcases List.mem_append.mp hp2 with h3 | h4
    · exact (mem_diffAdd.mp h3).2 hpu
    · have hch := (mem_diffChanged.mp h4).2
      have hcon := hfe2.2
      rw [hep] at hcon
      simp only [Bool.not_eq_true', decide_eq_false_iff_not] at hcon
      exact hcon hch
theorem canonVault_readable {u v : Vault}
    (hreadu : ∀ e ∈ u, e.2.readable = true) (hwfv : VaultWF v) :
    ∀ e ∈ canonVault u v, e.2.readable = true := by
  intro e he
  unfold canonVault at he
  rcases List.mem_append.mp he with h1 | h2
  · exact hreadu e (List.mem_of_mem_filter h1)
  · obtain ⟨p, hp, hpe⟩ := List.mem_map.mp h2
    have hpv : p ∈ Vault.paths v := by
      rcases List.mem_append.mp hp with h3 | h4
      · exact (mem_diffAdd.mp h3).1
      · exact (mem_diffCommon.mp (mem_diffChanged.mp h4).1).1
    obtain ⟨n, hn⟩ := lookup_isSome_of_mem_paths hpv
    have hvn : vaultNote v p = n := by
      unfold vaultNote
      rw [hn]
      rfl
    rw [← hpe]
    show (vaultNote v p).readable = true
    rw [hvn]
    exact hwfv.2 (p, n) (mem_of_lookup_eq_some hn)
theorem canonVault_lookup {u v : Vault}
    (hndu : (Vault.paths u).Nodup) (hwfv : VaultWF v)
    (hcompat : Compat u v) :
    ∀ p, Vault.lookup (canonVault u v) p = Vault.lookup v p := by
  intro p
  have hndv := hwfv.1
  by_cases hv : p ∈ Vault.paths v
  · obtain ⟨m, hm⟩ := lookup_isSome_of_mem_paths hv
    have hvn : vaultNote v p = m := by
      unfold vaultNote
      rw [hm]
      rfl
    rw [hm]
    by_cases hu : p ∈ Vault.paths u
    · obtain ⟨n, hn⟩ := lookup_isSome_of_mem_paths hu
      have hmtu : getMtime u p = n.mtime := getMtime_eq hn
      have hmtv : getMtime v p = m.mtime := getMtime_eq hm
      by_cases hch : getMtime v p > getMtime u p
      · have hpred : ((fun e => (Vault.paths v).contains e.1 &&
            !(decide (getMtime v e.1 > getMtime u e.1))) (p, n)) = false := by
          show ((Vault.paths v).contains p && !(decide (getMtime v p > getMtime u p))) = false
          rw [decide_eq_true hch]
          simp
        unfold canonVault
        rw [lookup_append_none (not_mem_paths_filter hndu hn hpred)]
        have hmem : (p, vaultNote v p) ∈ (diffAdd u v ++ diffChanged u v).map
            (fun q => (q, vaultNote v q)) := by
          apply List.mem_map.mpr
          refine ⟨p, ?_, rfl⟩
          apply List.mem_append_right
          exact mem_diffChanged.mpr ⟨mem_diffCommon.mpr ⟨hv, hu⟩, hch⟩
        have hndm : (Vault.paths ((diffAdd u v ++ diffChanged u v).map
            (fun q => (q, vaultNote v q)))).Nodup := by
          rw [paths_map_note, List.nodup_append]
          refine ⟨diffAdd_nodup hndv, diffChanged_nodup hndv, ?_⟩
          intro q hq1 hq2
          exact (mem_diffAdd.mp hq1).2 (mem_diffCommon.mp (mem_diffChanged.mp hq2).1).2
        rw [lookup_eq_some_of_mem hndm hmem, hvn]
      · have hpred : ((fun e => (Vault.paths v).contains e.1 &&
            !(decide (getMtime v e.1 > getMtime u e.1))) (p, n)) = true := by
          show ((Vault.paths v).contains p && !(decide (getMtime v p > getMtime u p))) = true
          rw [list_contains_true hv, decide_eq_false hch]
          rfl
        unfold canonVault
        rw [lookup_append_some (lookup_filter_of_mem hndu hn hpred)]
        have hcp := hcompat p n m hn hm
        have heqt : n.mtime = m.mtime := by
          rw [hmtu, hmtv] at hch
          omega
        rw [hcp.2 heqt]
    · have hnfilter : p ∉ Vault.paths (u.filter (fun e =>
          (Vault.paths v).contains e.1 && !(decide (getMtime v e.1 > getMtime u e.1)))) := by
        intro hc
        exact hu (List.Sublist.mem hc (paths_filter_sublist u _))
      unfold canonVault
      rw [lookup_append_none hnfilter]
      have hmem : (p, vaultNote v p) ∈ (diffAdd u v ++ diffChanged u v).map
          (fun q => (q, vaultNote v q)) := by
        apply List.mem_map.mpr
        refine ⟨p, ?_, rfl⟩
        apply List.mem_append_left
        exact mem_diffAdd.mpr ⟨hv, hu⟩
      have hndm : (Vault.paths ((diffAdd u v ++ diffChanged u v).map
          (fun q => (q, vaultNote v q)))).Nodup := by
        rw [paths_map_note, List.nodup_append]
        refine ⟨diffAdd_nodup hndv, diffChanged_nodup hndv, ?_⟩
        intro q hq1 hq2
        exact (mem_diffAdd.mp hq1).2 (mem_diffCommon.mp (mem_diffChanged.mp hq2).1).2
      rw [lookup_eq_some_of_mem hndm hmem, hvn]
  · have hnone : Vault.lookup v p = none := lookup_eq_none_iff.mpr hv
    rw [hnone]
    apply lookup_eq_none_iff.mpr
    intro hc
    exact hv (canonVault_paths_sub hc)
theorem lookup_singleton_self (p : String) (n : Note) :
    Vault.lookup [(p, n)] p = some n := by
  simp [Vault.lookup, List.find?]
theorem lookup_modify_ne {v : Vault} {p q : String} {nn : Note} (hq : q ≠ p) :
    Vault.lookup (v.map (fun e => if e.1 = p then (p, nn) else e)) q = Vault.lookup v q := by
  induction v with
  | nil => rfl
  | cons e v ih =>
    by_cases he : e.1 = p
    · have h1 : (if e.1 = p then (p, nn) else e) = (p, nn) := if_pos he
      unfold Vault.lookup
      rw [List.map_cons, h1, List.find?_cons, List.find?_cons]
      have hq1 : (decide ((p, nn).1 = q)) = false := by
        simp only [decide_eq_false_iff_not]
        exact fun hc => hq hc.symm
      have hq2 : (decide (e.1 = q)) = false := by
        simp only [decide_eq_false_iff_not]
        intro hc
        exact hq (by rw [← hc, he])
      rw [hq1, hq2]
      exact ih
    · have h1 : (if e.1 = p then (p, nn) else e) = e := if_neg he
      unfold Vault.lookup
      rw [List.map_cons, h1, List.find?_cons, List.find?_cons]
      cases hd : decide (e.1 = q) with
      | true => rfl
      | false => exact ih
theorem lookup_modify_self {v : Vault} {p : String} {nn n0 : Note}
    (hn : Vault.lookup v p = some n0) :
    Vault.lookup (v.map (fun e => if e.1 = p then (p, nn) else e)) p = some nn := by
  induction v with
  | nil => simp [Vault.lookup] at hn
  | cons e v ih =>
    by_cases he : e.1 = p
    · have h1 : (if e.1 = p then (p, nn) else e) = (p, nn) := if_pos he
      unfold Vault.lookup
      rw [List.map_cons, h1, List.find?_cons]
      simp [List.find?]
    · have h1 : (if e.1 = p then (p, nn) else e) = e := if_neg he
      have hn' : Vault.lookup v p = some n0 := by
        unfold Vault.lookup at hn
        rw [List.find?_cons] at hn
        have : decide (e.1 = p) = false := by simp [he]
        rw [this] at hn
        exact hn
      unfold Vault.lookup
      rw [List.map_cons, h1, List.find?_cons]
      have : decide (e.1 = p) = false := by simp [he]
      rw [this]
      exact ih hn'
theorem lookup_remove_self (v : Vault) (p : String) :
    Vault.lookup (v.filter (fun e => e.1 != p)) p = none := by
  unfold Vault.lookup
  rw [List.find?_eq_none.mpr]
  · rfl
  · intro e he
    simp only [decide_eq_true_eq]
    intro hc
    have := (List.mem_filter.mp he).2
    rw [hc] at this
    simp [bne] at this
theorem lookup_remove_ne {v : Vault} {p q : String} (hq : q ≠ p) :
    Vault.lookup (v.filter (fun e => e.1 != p)) q = Vault.lookup v q := by
  induction v with
  | nil => rfl
  | cons e v ih =>
    by_cases he : e.1 = p
    · have h1 : (e.1 != p) = false := by simp [bne, he]
      rw [List.filter_cons_of_neg (by rw [h1]; exact Bool.false_ne_true)]
      unfold Vault.lookup
      rw [List.find?_cons]
      have : decide (e.1 = q) = false := by
        simp only [decide_eq_false_iff_not]
        intro hc
        exact hq (by rw [← hc, he])
      rw [this]
      exact ih
    · have h1 : (e.1 != p) = true := by simp [bne, he]
      have hcons : List.filter (fun e : String × Note => e.1 != p) (e :: v) =
          e :: List.filter (fun e => e.1 != p) v := by
        simp [List.filter_cons, h1]
      rw [hcons]
      unfold Vault.lookup
      rw [List.find?_cons, List.find?_cons]
      cases hd : decide (e.1 = q) with
      | true => rfl
      | false => exact ih
theorem lookup_add_ne {v : Vault} {p q : String} {nn : Note} (hq : q ≠ p) :
    Vault.lookup (v ++ [(p, nn)]) q = Vault.lookup v q := by
  cases hl : Vault.lookup v q with
  | some n => exact lookup_append_some hl
  | none =>
    rw [lookup_append_none (lookup_eq_none_iff.mp hl)]
    unfold Vault.lookup
    rw [List.find?_cons]
    have : decide ((p, nn).1 = q) = false := by
      simp only [decide_eq_false_iff_not]
      exact fun hc => hq hc.symm
    rw [this]
    rfl
theorem paths_modify (v : Vault) (p : String) (nn : Note) :
    Vault.paths (v.map (fun e => if e.1 = p then (p, nn) else e)) = Vault.paths v := by
  unfold Vault.paths
  rw [List.map_map]
  apply List.map_congr_left
  intro e _
  by_cases he : e.1 = p
  · show (if e.1 = p then (p, nn) else e).1 = e.1
    rw [if_pos he, he]
  · show (if e.1 = p then (p, nn) else e).1 = e.1
    rw [if_neg he]
theorem applyOp_WF {v : Vault} {op : VaultOp} (hwf : VaultWF v) (hvalid : opValid v op) :
    VaultWF (applyOp v op) := by
  cases op with
  | addNote p t c tg cr m =>
    constructor
    · show (Vault.paths (v ++ [(p, ⟨t, c, tg, cr, m, true⟩)])).Nodup
      rw [paths_append, List.nodup_append]
      refine ⟨hwf.1, List.nodup_singleton p, ?_⟩
      intro q hq hq2
      simp only [Vault.paths, List.map_cons, List.map_nil, List.mem_singleton] at hq2
      exact hvalid (hq2 ▸ hq)
    · intro e he
      rcases List.mem_append.mp he with h1 | h2
      · exact hwf.2 e h1
      · simp only [List.mem_singleton] at h2
        rw [h2]
  | modifyNote p t c tg cr m =>
    constructor
    · show (Vault.paths (v.map (fun e => if e.1 = p then (p, ⟨t, c, tg, cr, m, true⟩) else e))).Nodup
      rw [paths_modify]
      exact hwf.1
    · intro e he
      obtain ⟨e0, he0, heq⟩ := List.mem_map.mp he
      by_cases h0 : e0.1 = p
      · rw [← heq, if_pos h0]
      · rw [← heq, if_neg h0]
        exact hwf.2 e0 he0
  | removeNote p =>
    constructor
    · exact List.Nodup.sublist (paths_filter_sublist v _) hwf.1
    · intro e he
      exact hwf.2 e (List.mem_of_mem_filter he)
theorem opCompat {v : Vault} {op : VaultOp} (hwf : VaultWF v) (hvalid : opValid v op) :
    Compat v (applyOp v op) := by
  intro q n m hn hm
  cases op with
  | addNote p t c tg cr mt =>
    by_cases hq : q = p
    · exfalso
      exact hvalid (hq ▸ lookup_mem_paths hn)
    · have : Vault.lookup (applyOp v (.addNote p t c tg cr mt)) q = Vault.lookup v q :=
        lookup_add_ne hq
      rw [this, hn] at hm
      have heq : n = m := by injection hm
      rw [heq]
      exact ⟨Nat.le_refl _, fun _ => rfl⟩
  | modifyNote p t c tg cr mt =>
    obtain ⟨n0, hn0, hlt⟩ := hvalid
    by_cases hq : q = p
    · subst hq
      rw [hn0] at hn
      have heqn : n = n0 := by injection hn with h; exact h.symm
      have hm2 : Vault.lookup (applyOp v (.modifyNote q t c tg cr mt)) q =
          some ⟨t, c, tg, cr, mt, true⟩ := lookup_modify_self hn0
      rw [hm2] at hm
      have heqm : m = ⟨t, c, tg, cr, mt, true⟩ := by injection hm with h; exact h.symm
      constructor
      · rw [heqn, heqm]
        exact Nat.le_of_lt hlt
      · intro hc
        exfalso
        rw [heqn, heqm] at hc
        simp only at hc
        omega
    · have : Vault.lookup (applyOp v (.modifyNote p t c tg cr mt)) q = Vault.lookup v q :=
        lookup_modify_ne hq
      rw [this, hn] at hm
      have heq : n = m := by injection hm
      rw [heq]
      exact ⟨Nat.le_refl _, fun _ => rfl⟩
  | removeNote p =>
    by_cases hq : q = p
    · exfalso
      subst hq
      have : Vault.lookup (applyOp v (.removeNote q)) q = none := lookup_remove_self v q
      rw [this] at hm
      cases hm
    · have : Vault.lookup (applyOp v (.removeNote p)) q = Vault.lookup v q :=
        lookup_remove_ne hq
      rw [this, hn] at hm
      have heq : n = m := by injection hm
      rw [heq]
      exact ⟨Nat.le_refl _, fun _ => rfl⟩
theorem paths_applyOp_sub {v : Vault} {op : VaultOp} {q : String}
    (hq : q ∈ Vault.paths (applyOp v op)) : q ∈ Vault.paths v ∨ q = opPath op := by
  cases op with
  | addNote p t c tg cr m =>
    rw [show applyOp v (.addNote p t c tg cr m) = v ++ [(p, ⟨t, c, tg, cr, m, true⟩)] from rfl,
      paths_append] at hq
    rcases List.mem_append.mp hq with h1 | h2
    · exact Or.inl h1
    · simp only [Vault.paths, List.map_cons, List.map_nil, List.mem_singleton] at h2
      exact Or.inr h2
  | modifyNote p t c tg cr m =>
    rw [show applyOp v (.modifyNote p t c tg cr m) =
      v.map (fun e => if e.1 = p then (p, ⟨t, c, tg, cr, m, true⟩) else e) from rfl,
      paths_modify] at hq
    exact Or.inl hq
  | removeNote p =>
    exact Or.inl (List.Sublist.mem hq (paths_filter_sublist v _))
theorem indexAllNotes_empty_store (env : Env) (v : Vault) :
    (indexAllNotes env v ⟨[]⟩).2.records = indexAllDocs env v := by
  unfold indexAllNotes
  cases h : (indexAllDocs env v).isEmpty with
  | true =>
    simp only [h, if_pos]
    rw [List.isEmpty_iff] at h
    rw [h]
  | false =>
    simp only [h, Bool.false_eq_true, if_neg, not_false_iff]
theorem mem_flatMap_entry_lookup {env : Env} {w : Vault} {r : Record}
    (hnd : (Vault.paths w).Nodup) :
    r ∈ w.flatMap (entryRecords env) ↔
      ∃ p n, Vault.lookup w p = some n ∧ r ∈ entryRecords env (p, n) := by
  rw [mem_flatMap_entry]
  constructor
  · rintro ⟨e, he, hr⟩
    refine ⟨e.1, e.2, lookup_eq_some_of_mem hnd (by cases e; exact he), ?_⟩
    cases e
    exact hr
  · rintro ⟨p, n, hl, hr⟩
    exact ⟨(p, n), mem_of_lookup_eq_some hl, hr⟩
theorem runOps_canonical (env : Env)
    (hne : ∀ t, t ≠ "" → env.splitText t ≠ []) :
    ∀ ops v s u, VaultWF v → opsValid v ops →
    (Vault.paths u).Nodup → (∀ e ∈ u, e.2.readable = true) →
    (∀ p, Vault.lookup u p = Vault.lookup v p) →
    (∀ p ∈ Vault.paths u, p ∈ Vault.paths v) →
    s.records = u.flatMap (entryRecords env) →
    TruncInj env (Vault.paths v ++ ops.map opPath) →
    ∃ w, (Vault.paths w).Nodup ∧ (∀ e ∈ w, e.2.readable = true) ∧
      (∀ p, Vault.lookup w p = Vault.lookup (runOps env v s ops).1 p) ∧
      (runOps env v s ops).2.records = w.flatMap (entryRecords env) ∧
      VaultWF (runOps env v s ops).1 := by
  intro ops
  induction ops with
  | nil =>
    intro v s u hwfv _ hndu hreadu hlu _ hs _
    exact ⟨u, hndu, hreadu, hlu, hs, hwfv⟩
  | cons op ops ih =>
    intro v s u hwfv hvalid hndu hreadu hlu hsub hs hinj
    have hwfv' : VaultWF (applyOp v op) := applyOp_WF hwfv hvalid.1
    have hcvv' : Compat v (applyOp v op) := opCompat hwfv hvalid.1
    have hcuv' : Compat u (applyOp v op) := by
      intro p n m hn hm
      apply hcvv' p n m ?_ hm
      rw [← hlu p]
      exact hn
    have hsubv' : ∀ q ∈ Vault.paths (applyOp v op),
        q ∈ Vault.paths v ++ (op :: ops).map opPath := by
      intro q hq
      rcases paths_applyOp_sub hq with h1 | h2
      · exact List.mem_append_left _ h1
      · apply List.mem_append_right
        rw [List.map_cons, h2]
        exact List.mem_cons_self _ _
    have hinj1 : TruncInj env (Vault.paths u ++ Vault.paths (applyOp v op)) := by
      apply hinj.mono
      intro q hq
      rcases List.mem_append.mp hq with h1 | h2
      · exact List.mem_append_left _ (hsub q h1)
      · exact hsubv' q h2
    have hsync := syncIndex_canonical hndu hreadu (fun e _ => hne _ (fullText_ne _))
      hwfv' hs hinj1
    have hndu' : (Vault.paths (canonVault u (applyOp v op))).Nodup :=
      canonVault_nodup hndu hwfv'.1
    have hreadu' : ∀ e ∈ canonVault u (applyOp v op), e.2.readable = true :=
      canonVault_readable hreadu hwfv'
    have hlu' : ∀ p, Vault.lookup (canonVault u (applyOp v op)) p =
        Vault.lookup (applyOp v op) p :=
      canonVault_lookup hndu hwfv' hcuv'
    have hsub' : ∀ p ∈ Vault.paths (canonVault u (applyOp v op)),
        p ∈ Vault.paths (applyOp v op) :=
      fun p hp => canonVault_paths_sub hp
    have hinj2 : TruncInj env (Vault.paths (applyOp v op) ++ ops.map opPath) := by
      apply hinj.mono
      intro q hq
      rcases List.mem_append.mp hq with h1 | h2
      · exact hsubv' q h1
      · apply List.mem_append_right
        rw [List.map_cons]
        exact List.mem_cons_of_mem _ h2
    exact ih (applyOp v op) ((syncIndex env (applyOp v op) s true).2)
      (canonVault u (applyOp v op)) hwfv' hvalid.2 hndu' hreadu' hlu' hsub' hsync.2 hinj2
theorem canonVault_lookup_unchanged {u v : Vault} {p : String} {n : Note}
    (hndu : (Vault.paths u).Nodup) (hn : Vault.lookup u p = some n)
    (hv : p ∈ Vault.paths v) (hch : ¬(getMtime v p > getMtime u p)) :
    Vault.lookup (canonVault u v) p = some n := by
  have hpred : ((fun e => (Vault.paths v).contains e.1 &&
      !(decide (getMtime v e.1 > getMtime u e.1))) (p, n)) = true := by
    show ((Vault.paths v).contains p && !(decide (getMtime v p > getMtime u p))) = true
    rw [list_contains_true hv, decide_eq_false hch]
    rfl
  unfold canonVault
  exact lookup_append_some (lookup_filter_of_mem hndu hn hpred)
theorem mem_flatMap_entry_source {env : Env} {w : Vault} {r : Record} {p : String}
    (hnd : (Vault.paths w).Nodup) (hsrc : r.meta.source = p) :
    r ∈ w.flatMap (entryRecords env) ↔
      ∃ n, Vault.lookup w p = some n ∧ r ∈ entryRecords env (p, n) := by
  constructor
  · intro h
    obtain ⟨e, he, hr⟩ := mem_flatMap_entry.mp h
    have hkey : e.1 = p := by
      rw [← (entryRecords_fields hr).1, hsrc]
    refine ⟨e.2, ?_, ?_⟩
    · rw [← hkey]
      exact lookup_eq_some_of_mem hnd (by cases e; exact he)
    · rw [← hkey]
      cases e
      exact hr
  · rintro ⟨n, hl, hr⟩
    exact mem_flatMap_entry.mpr ⟨(p, n), mem_of_lookup_eq_some hl, hr⟩
theorem canonical_store_mtime {env : Env} {u : Vault} {r : Record}
    (hndu : (Vault.paths u).Nodup) (hr : r ∈ u.flatMap (entryRecords env)) :
    r.meta.mtime = getMtime u r.meta.source := by
  obtain ⟨e, he, hre⟩ := mem_flatMap_entry.mp hr
  have hf := entryRecords_fields hre
  have hl : Vault.lookup u e.1 = some e.2 := lookup_eq_some_of_mem hndu (by cases e; exact he)
  rw [hf.1, getMtime_eq hl]
  exact hf.2.1
/-- C10: if reading the collection metadata fails at the start of
`sync_index`, the source does not raise: it falls back to `index_all_notes`
and returns added = number of vault documents, removed = updated =
unchanged = 0, regardless of the prior index contents. -/
theorem c10_metadata_failure_full_reindex (env : Env) (v : Vault) (s : Store) :
    (syncIndex env v s false).1 =
      { added := v.length, removed := 0, updated := 0, unchanged := 0 } ∧
    (syncIndex env v s false).2 = (indexAllNotes env v s).2 := by
  constructor
  · rw [syncIndex_false_eq]
    simp [vaultNotesOf]
  · rw [syncIndex_false_eq]
/-- C5 (code bug): when the backend lookup inside `delete_note_from_index`
fails, the source catches the `RuntimeError` and returns 0 — a silent
zero-count success even though records for the note exist — while a failing
backend delete call is correctly surfaced as an error. -/
theorem c5_lookup_error_silently_returns_zero :
    deleteNoteFromIndexX false true ⟨[staleRec]⟩ "gone.md" = .ok (0, ⟨[staleRec]⟩) ∧
    getNoteDocIds ⟨[staleRec]⟩ "gone.md" ≠ [] ∧
    deleteNoteFromIndexX true false ⟨[staleRec]⟩ "gone.md" = .error () := by
  refine ⟨rfl, ?_, rfl⟩
  decide
/-- C9: `add_note_to_index` returns 0 with a logged warning (and no raise)
for an unreadable document, and returns the number of chunks of the
title-plus-content text for a readable one. -/
theorem c9_add_note_counts (env : Env) (v : Vault) (s : Store) (p : String) :
    (∀ e, readNote v p = .error e →
      addNoteToIndex env v s p = (0, s, ["Failed to read note " ++ p])) ∧
    (∀ nd, readNote v p = .ok nd →
      (addNoteToIndex env v s p).1 = (env.splitText (fullText nd)).length) := by
  constructor
  · intro e he
    unfold addNoteToIndex
    rw [he]
  · intro nd hnd
    unfold addNoteToIndex
    rw [hnd]
    show (chunkRecords env p nd (getMtime v p)).length = _
    exact chunkRecords_length env p nd (getMtime v p)
theorem c9_witness :
    addNoteToIndex env0 [("a.md", noteA1)] ⟨[]⟩ "bad.md" =
      (0, ⟨[]⟩, ["Failed to read note bad.md"]) ∧
    (addNoteToIndex env0 [("a.md", noteA1)] ⟨[]⟩ "a.md").1 = 1 := by
  constructor
  · exact (c9_add_note_counts env0 [("a.md", noteA1)] ⟨[]⟩ "bad.md").1 () rfl
  · exact (c9_add_note_counts env0 [("a.md", noteA1)] ⟨[]⟩ "a.md").2
      ⟨"A", "alpha", [], ""⟩ rfl
/-- C8: `get_similar_notes` searches k+1, filters out the target's own path,
and truncates to k — the result never contains the target and has at most k
hits, for every backend behaviour. -/
theorem c8_similar_excludes_self (backend : String → Nat → List (Record × Int))
    (v : Vault) (p : String) (k : Nat) (res : List SearchHit)
    (h : getSimilarNotes backend v p k = .ok res) :
    res.length ≤ k ∧ ∀ hit ∈ res, hit.path ≠ p := by
  unfold getSimilarNotes at h
  cases hr : readNote v p with
  | error e => rw [hr] at h; cases h
  | ok nd =>
    rw [hr] at h
    have hres : res = ((searchNotes backend (nd.title ++ "\n" ++ nd.content.take 500) (k + 1)).filter
        (fun r => r.path != p)).take k := by
      injection h with h2
      exact h2.symm
    constructor
    · rw [hres]
      exact List.length_take_le k _
    · intro hit hmem
      rw [hres] at hmem
      exact bne_iff_ne.mp (List.mem_filter.mp (List.mem_of_mem_take hmem)).2
theorem c8_witness :
    getSimilarNotes selfBackend [("a.md", noteA1)] "a.md" 5 = .ok [] ∧
    (([] : List SearchHit).length ≤ 5 ∧
      ∀ hit ∈ ([] : List SearchHit), hit.path ≠ "a.md") := by
  constructor
  · rfl
  · exact c8_similar_excludes_self selfBackend [("a.md", noteA1)] "a.md" 5 [] rfl
/-- C7: the record id is the 12-hex-character truncation of the path hash
followed by the chunk marker and the decimal ordinal; it depends only on the
path and ordinal, so re-indexing the same document — even with different
content or modification time — assigns identical ids at identical chunk
positions. -/
theorem c7_deterministic_chunk_ids (env : Env) (p : String) (i : Nat)
    (hlen : ((env.md5hex p).take 12).length = 12)
    (hhex : ∀ c ∈ ((env.md5hex p).take 12).data, isHexChar c = true) :
    (∃ h12, generateDocId env p i = h12 ++ "_chunk_" ++ natRepr i ∧
      h12.length = 12 ∧ (∀ c ∈ h12.data, isHexChar c = true)) ∧
    (∀ nd1 nd2 m1 m2 r1 r2, r1 ∈ chunkRecords env p nd1 m1 →
      r2 ∈ chunkRecords env p nd2 m2 → r1.meta.chunk = r2.meta.chunk →
      r1.id = r2.id) := by
  constructor
  · exact ⟨(env.md5hex p).take 12, rfl, hlen, hhex⟩
  · intro nd1 nd2 m1 m2 r1 r2 h1 h2 hc
    rw [(chunkRecords_fields h1).2.2.1, (chunkRecords_fields h2).2.2.1, hc]
theorem c7_witness :
    ((envHex.md5hex "a.md").take 12).length = 12 ∧ rec1.id = rec2.id := by
  refine ⟨by decide, ?_⟩
  exact (c7_deterministic_chunk_ids envHex "a.md" 0 (by decide) (by decide)).2
    ⟨"A", "x", [], ""⟩ ⟨"A", "y", [], ""⟩ 1 2 rec1 rec2 (by decide) (by decide) rfl
/-- C4: `update_note_index` deletes every old chunk record of the note before
re-adding it: afterwards the records whose source is the note are exactly the
fresh chunk records (ordinals 0..M-1), so no chunk with ordinal at or above
the new count survives. -/
theorem c4_update_note_replaces (env : Env) (v : Vault) (s : Store) (p : String)
    (nd : NoteData) (hok : readNote v p = .ok nd)
    (hnd : (s.records.map (fun r => r.id)).Nodup) :
    (updateNoteIndex env v s p).1 = (env.splitText (fullText nd)).length ∧
    ((updateNoteIndex env v s p).2.1.records.filter (fun r => r.meta.source == p)) =
      chunkRecords env p nd (getMtime v p) ∧
    (∀ r ∈ (updateNoteIndex env v s p).2.1.records, r.meta.source = p →
      r.meta.chunk < (env.splitText (fullText nd)).length) := by
  have hdel : (deleteNoteFromIndex s p).2 =
      ⟨s.records.filter (fun r => r.meta.source != p)⟩ :=
    store_eq_of_records (delete_eq_filter hnd)
  have hupd : updateNoteIndex env v s p =
      addNoteToIndex env v ⟨s.records.filter (fun r => r.meta.source != p)⟩ p := by
    show addNoteToIndex env v (deleteNoteFromIndex s p).2 p = _
    rw [hdel]
  have hadd : addNoteToIndex env v ⟨s.records.filter (fun r => r.meta.source != p)⟩ p =
      ((chunkRecords env p nd (getMtime v p)).length,
        (⟨s.records.filter (fun r => r.meta.source != p)⟩ : Store).upsert
          (chunkRecords env p nd (getMtime v p)), []) := by
    unfold addNoteToIndex
    rw [hok]
  have hrec : (updateNoteIndex env v s p).2.1.records =
      (s.records.filter (fun r => r.meta.source != p)).filter
        (fun r => (chunkRecords env p nd (getMtime v p)).all (fun r2 => r2.id != r.id))
      ++ chunkRecords env p nd (getMtime v p) := by
    rw [hupd, hadd]
    rfl
  refine ⟨?_, ?_, ?_⟩
  · rw [hupd, hadd]
    exact chunkRecords_length env p nd (getMtime v p)
  · rw [hrec, List.filter_append]
    have h1 : ((s.records.filter (fun r => r.meta.source != p)).filter
        (fun r => (chunkRecords env p nd (getMtime v p)).all (fun r2 => r2.id != r.id))).filter
        (fun r => r.meta.source == p) = [] := by
      apply List.filter_eq_nil_iff.mpr
      intro r hr
      have hr2 := List.mem_of_mem_filter hr
      have := (List.mem_filter.mp hr2).2
      simp only [beq_iff_eq]
      simp only [bne_iff_ne] at this
      simp [this]
    have h2 : (chunkRecords env p nd (getMtime v p)).filter
        (fun r => r.meta.source == p) = chunkRecords env p nd (getMtime v p) := by
      apply List.filter_eq_self.mpr
      intro r hr
      rw [(chunkRecords_fields hr).1]
      exact beq_iff_eq.mpr rfl
    rw [h1, h2, List.nil_append]
  · intro r hr hsrc
    rw [hrec] at hr
    rcases List.mem_append.mp hr with h1 | h2
    · exfalso
      have := (List.mem_filter.mp (List.mem_of_mem_filter h1)).2
      simp only [bne_iff_ne] at this
      exact this hsrc
    · exact (chunkRecords_fields h2).2.2.2
theorem c4_witness :
    readNote [("a.md", noteA1)] "a.md" = .ok ⟨"A", "alpha", [], ""⟩ ∧
    (updateNoteIndex env0 [("a.md", noteA1)] store4 "a.md").1 = 1 ∧
    ((updateNoteIndex env0 [("a.md", noteA1)] store4 "a.md").2.1.records.filter
      (fun r => r.meta.source == "a.md")) =
      chunkRecords env0 "a.md" ⟨"A", "alpha", [], ""⟩ 1 := by
  have h := c4_update_note_replaces env0 [("a.md", noteA1)] store4 "a.md"
    ⟨"A", "alpha", [], ""⟩ rfl (by decide)
  refine ⟨rfl, ?_, ?_⟩
  · rw [h.1]
    decide
  · rw [h.2.1]
    rfl
/-- C1 counterexample: on a vault from which every document has disappeared,
`index_all_notes` produces no documents, skips the rebuild (`if documents:`),
and leaves the stale record of the vanished document in the collection —
contradicting the claim that the existing collection is always discarded. -/
theorem c1_counterexample :
    (indexAllNotes env0 [] ⟨[staleRec]⟩).2.records = [staleRec] ∧
    staleRec.meta.source ∉ Vault.paths ([] : Vault) := by
  refine ⟨rfl, ?_⟩
  intro h
  cases h
/-- C1 (amended): provided the current vault yields at least one record,
`index_all_notes` replaces the collection with exactly the records derived
from the current vault's readable documents — no stale record survives. -/
theorem c1_full_resync_rebuilds (env : Env) (v : Vault) (s : Store)
    (hne : indexAllDocs env v ≠ []) :
    (indexAllNotes env v s).2.records = indexAllDocs env v ∧
    (∀ r, r ∈ (indexAllNotes env v s).2.records ↔
      ∃ p ∈ Vault.paths v, r ∈ vaultDocRecords env v p) := by
  have hemp : (indexAllDocs env v).isEmpty = false := by
    rw [Bool.eq_false_iff]
    intro hc
    exact hne (List.isEmpty_iff.mp hc)
  have hrec : (indexAllNotes env v s).2.records = indexAllDocs env v := by
    show (if (indexAllDocs env v).isEmpty = true then ((0 : Nat), s)
      else ((indexAllDocs env v).length, (⟨indexAllDocs env v⟩ : Store))).2.records =
      indexAllDocs env v
    rw [hemp]
    simp
  refine ⟨hrec, ?_⟩
  intro r
  rw [hrec]
  unfold indexAllDocs
  exact List.mem_flatMap
theorem c1_witness :
    indexAllDocs env0 [("a.md", noteA1)] ≠ [] ∧
    (indexAllNotes env0 [("a.md", noteA1)] ⟨[staleRec]⟩).2.records =
      indexAllDocs env0 [("a.md", noteA1)] := by
  refine ⟨by decide, ?_⟩
  exact (c1_full_resync_rebuilds env0 [("a.md", noteA1)] ⟨[staleRec]⟩ (by decide)).1
/-- C6 counterexample: index note A at mtime 1, advance the file's mtime to 2
without changing the content, and sync: the source re-indexes A and reports
updated = 1, unchanged = 0 — not unchanged = 1, updated = 0 as claimed. -/
theorem c6_counterexample :
    (syncIndex env0 [("A.md", noteA2)]
        ⟨indexAllDocs env0 [("A.md", noteA1)]⟩ true).1.updated = 1 ∧
    (syncIndex env0 [("A.md", noteA2)]
        ⟨indexAllDocs env0 [("A.md", noteA1)]⟩ true).1.unchanged = 0 ∧
    noteA2.content = noteA1.content ∧ noteA1.mtime < noteA2.mtime := by
  decide
/-- C6 (amended): advancing a document's modification timestamp — whether or
not the content changed — makes the next incremental sync re-index it: change
detection is timestamp-only, so the sync reports updated = 1 and
unchanged = 0 for that document. -/
theorem c6_touch_reindexes (env : Env) (p : String) (n n2 : Note)
    (hread : n.readable = true) (hread2 : n2.readable = true)
    (hne1 : env.splitText (fullText (noteData n)) ≠ [])
    (hinj : TruncInj env [p])
    (hmt : n.mtime < n2.mtime) :
    (syncIndex env [(p, n2)] ⟨indexAllDocs env [(p, n)]⟩ true).1 =
      { added := 0, removed := 0, updated := 1, unchanged := 0 } := by
  have hndu : (Vault.paths [(p, n)]).Nodup := by
    simp [Vault.paths]
  have hndv : (Vault.paths [(p, n2)]).Nodup := by
    simp [Vault.paths]
  have hwfv : VaultWF [(p, n2)] := by
    refine ⟨hndv, ?_⟩
    intro e he
    simp only [List.mem_singleton] at he
    rw [he]
    exact hread2
  have hs : (⟨indexAllDocs env [(p, n)]⟩ : Store).records =
      ([(p, n)] : Vault).flatMap (entryRecords env) := by
    show indexAllDocs env [(p, n)] = _
    exact indexAllDocs_eq_entry hndu
  have hinj2 : TruncInj env (Vault.paths [(p, n)] ++ Vault.paths [(p, n2)]) := by
    apply hinj.mono
    intro q hq
    simp only [Vault.paths, List.map_cons, List.map_nil] at hq
    rcases List.mem_append.mp hq with h1 | h2
    · simpa using h1
    · simpa using h2
  have hsync := syncIndex_canonical hndu
    (by intro e he; simp only [List.mem_singleton] at he; rw [he]; exact hread)
    (by intro e he; simp only [List.mem_singleton] at he; rw [he]; exact hne1)
    hwfv hs hinj2
  rw [hsync.1]
  have hpaths_u : Vault.paths [(p, n)] = [p] := rfl
  have hpaths_v : Vault.paths [(p, n2)] = [p] := rfl
  have hcontains : ([p].contains p) = true := list_contains_true (List.mem_singleton.mpr rfl)
  have hAdd : diffAdd [(p, n)] [(p, n2)] = [] := by
    unfold diffAdd
    rw [hpaths_u, hpaths_v]
    rw [List.filter_cons_of_neg (by rw [hcontains]; simp)]
    rfl
  have hRem : diffRemove [(p, n)] [(p, n2)] = [] := by
    unfold diffRemove
    rw [hpaths_u, hpaths_v]
    rw [List.filter_cons_of_neg (by rw [hcontains]; simp)]
    rfl
  have hCom : diffCommon [(p, n)] [(p, n2)] = [p] := by
    unfold diffCommon
    rw [hpaths_u, hpaths_v]
    rw [List.filter_cons_of_pos hcontains]
    rfl
  have hmtv : getMtime [(p, n2)] p = n2.mtime := getMtime_eq (lookup_singleton_self p n2)
  have hmtu : getMtime [(p, n)] p = n.mtime := getMtime_eq (lookup_singleton_self p n)
  have hdec : decide (getMtime [(p, n2)] p > getMtime [(p, n)] p) = true := by
    rw [hmtv, hmtu]
    exact decide_eq_true hmt
  have hCh : diffChanged [(p, n)] [(p, n2)] = [p] := by
    unfold diffChanged
    rw [hCom, List.filter_cons]
    simp [hdec]
  have hUn : diffUnchanged [(p, n)] [(p, n2)] = [] := by
    unfold diffUnchanged
    rw [hCom, List.filter_cons]
    simp [hdec]
  rw [hAdd, hRem, hCh, hUn]
  rfl
theorem c6_witness :
    noteA1.readable = true ∧ noteA1.mtime < noteA2.mtime ∧
    (syncIndex env0 [("A.md", noteA2)]
        ⟨indexAllDocs env0 [("A.md", noteA1)]⟩ true).1 =
      { added := 0, removed := 0, updated := 1, unchanged := 0 } := by
  refine ⟨rfl, by decide, ?_⟩
  exact c6_touch_reindexes env0 "A.md" noteA1 noteA2 rfl rfl (by decide)
    ⟨by decide, by decide⟩ (by decide)
/-- C3: during incremental sync over a canonically-indexed store, the stored
metadata mtime of every record is its document's indexed mtime; a document
present in both vault and index is counted updated exactly when its vault
mtime is strictly greater than the indexed mtime and counted unchanged
otherwise (equal or older); and the records of an unchanged document are left
untouched by the sync. -/
theorem c3_change_detection_strict_mtime (env : Env) (u v : Vault) (s : Store)
    (hndu : (Vault.paths u).Nodup)
    (hreadu : ∀ e ∈ u, e.2.readable = true)
    (hneu : ∀ e ∈ u, env.splitText (fullText (noteData e.2)) ≠ [])
    (hwfv : VaultWF v)
    (hs : s.records = u.flatMap (entryRecords env))
    (hinj : TruncInj env (Vault.paths u ++ Vault.paths v)) :
    (syncIndex env v s true).1.updated = (diffChanged u v).length ∧
    (syncIndex env v s true).1.unchanged = (diffUnchanged u v).length ∧
    (∀ p ∈ diffCommon u v,
      (p ∈ diffChanged u v ↔ getMtime v p > getMtime u p) ∧
      (p ∈ diffUnchanged u v ↔ ¬(getMtime v p > getMtime u p))) ∧
    (∀ r ∈ s.records, r.meta.mtime = getMtime u r.meta.source) ∧
    (∀ p ∈ diffUnchanged u v, ∀ r, r.meta.source = p →
      (r ∈ (syncIndex env v s true).2.records ↔ r ∈ s.records)) := by
  have hsync := syncIndex_canonical hndu hreadu hneu hwfv hs hinj
  refine ⟨by rw [hsync.1], by rw [hsync.1], ?_, ?_, ?_⟩
  · intro p hp
    constructor
    · constructor
      · intro h
        exact (mem_diffChanged.mp h).2
      · intro h
        exact mem_diffChanged.mpr ⟨hp, h⟩
    · constructor
      · intro h
        exact (mem_diffUnchanged.mp h).2
      · intro h
        exact mem_diffUnchanged.mpr ⟨hp, h⟩
  · intro r hr
    rw [hs] at hr
    exact canonical_store_mtime hndu hr
  · intro p hp r hsrc
    rw [hsync.2, hs]
    obtain ⟨hpcom, hch⟩ := mem_diffUnchanged.mp hp
    obtain ⟨hpv, hpu⟩ := mem_diffCommon.mp hpcom
    obtain ⟨n, hn⟩ := lookup_isSome_of_mem_paths hpu
    have hcanon : Vault.lookup (canonVault u v) p = some n :=
      canonVault_lookup_unchanged hndu hn hpv hch
    have hndc : (Vault.paths (canonVault u v)).Nodup := canonVault_nodup hndu hwfv.1
    rw [mem_flatMap_entry_source hndc hsrc, mem_flatMap_entry_source hndu hsrc,
      hcanon, hn]
theorem c3_witness :
    (syncIndex env0 [("A.md", noteA2), ("B.md", noteB1)]
        ⟨([("A.md", noteA1), ("B.md", noteB1)] : Vault).flatMap (entryRecords env0)⟩
        true).1.updated =
      (diffChanged [("A.md", noteA1), ("B.md", noteB1)]
        [("A.md", noteA2), ("B.md", noteB1)]).length ∧
    (diffChanged [("A.md", noteA1), ("B.md", noteB1)]
      [("A.md", noteA2), ("B.md", noteB1)]).length = 1 ∧
    (syncIndex env0 [("A.md", noteA2), ("B.md", noteB1)]
        ⟨([("A.md", noteA1), ("B.md", noteB1)] : Vault).flatMap (entryRecords env0)⟩
        true).1.unchanged = 1 := by
  have h := c3_change_detection_strict_mtime env0
    [("A.md", noteA1), ("B.md", noteB1)] [("A.md", noteA2), ("B.md", noteB1)]
    ⟨([("A.md", noteA1), ("B.md", noteB1)] : Vault).flatMap (entryRecords env0)⟩
    (by decide) (by decide)
    (by intro e he; simp only [List.mem_cons, List.not_mem_nil, or_false] at he
        rcases he with rfl | rfl <;> decide)
    ⟨by decide, by intro e he
                   simp only [List.mem_cons, List.not_mem_nil, or_false] at he
                   rcases he with rfl | rfl <;> decide⟩
    rfl ⟨by decide, by decide⟩
  refine ⟨h.1, by decide, ?_⟩
  rw [h.2.1]
  decide
/-- C2: starting from an empty vault and an empty index, for every valid
sequence of add/modify/remove edits, running one incremental sync after each
edit leaves the index with exactly the same set of records — same ids, same
chunk texts, same metadata — as one full resync (`index_all_notes` into a
fresh collection) over the final vault state. -/
theorem c2_incremental_matches_full_resync (env : Env) (ops : List VaultOp)
    (hvalid : opsValid [] ops)
    (hne : ∀ t, t ≠ "" → env.splitText t ≠ [])
    (hinj : TruncInj env (ops.map opPath)) :
    ∀ r, r ∈ (runOps env [] ⟨[]⟩ ops).2.records ↔
      r ∈ (indexAllNotes env (runOps env [] ⟨[]⟩ ops).1 ⟨[]⟩).2.records := by
  have hwfnil : VaultWF ([] : Vault) := by
    constructor
    · exact List.nodup_nil
    · intro e he
      cases he
  obtain ⟨w, hndw, hreadw, hlw, hrec, hwffinal⟩ :=
    runOps_canonical env hne ops [] ⟨[]⟩ [] hwfnil hvalid List.nodup_nil
      (by intro e he; cases he) (fun p => rfl) (by intro p hp; cases hp) rfl
      (hinj.mono (by
        intro q hq
        rcases List.mem_append.mp hq with h1 | h2
        · simp [Vault.paths] at h1
        · exact h2))
  intro r
  rw [hrec, indexAllNotes_empty_store, indexAllDocs_eq_entry hwffinal.1,
    mem_flatMap_entry_lookup hndw, mem_flatMap_entry_lookup hwffinal.1]
  constructor
  · rintro ⟨p, n, hl, hr⟩
    refine ⟨p, n, ?_, hr⟩
    rw [← hlw p]
    exact hl
  · rintro ⟨p, n, hl, hr⟩
    refine ⟨p, n, ?_, hr⟩
    rw [hlw p]
    exact hl
theorem c2_witness :
    opsValid [] ops2 ∧
    (rec1 ∈ (runOps env0 [] ⟨[]⟩ ops2).2.records ↔
      rec1 ∈ (indexAllNotes env0 (runOps env0 [] ⟨[]⟩ ops2).1 ⟨[]⟩).2.records) := by
  have hv : opsValid [] ops2 := by
    refine ⟨?_, ?_, ?_, trivial, trivial⟩
    · show "a.md" ∉ Vault.paths []
      decide
    · show "b.md" ∉ Vault.paths (applyOp [] (.addNote "a.md" "A" "alpha" [] "" 1))
      decide
    · exact ⟨⟨"A", "alpha", [], "", 1, true⟩, rfl, by decide⟩
  refine ⟨hv, ?_⟩
  exact c2_incremental_matches_full_resync env0 ops2 hv
    (by intro t ht
        show (if t = "" then [] else [t]) ≠ []
        simp [ht])
    ⟨by decide, by decide⟩ rec1
